import Mathlib

/-!
Verification of the tab-to-PDF renderer in `src/songsterr_downloader.py`
(class `TabToPDF`).  The renderer is embedded shallowly:

* geometry is exact rational arithmetic (`ℚ`) standing in for Python floats
  (reportlab's `mm` unit is `72 / 25.4 = 360/127` points, A4 is
  `210mm × 297mm`);
* JSON documents are records (`Doc`, `Measure`, `Voice`, `Beat`, `Note`);
  a field read with `.get(k, d)` in Python is an `Option` with the default
  applied at the use site, mirroring the source;
* drawing on the reportlab canvas is modelled as an output trace: one
  `MeasureTrace` record per rendered measure, recording the state of the
  layout cursor when the measure was drawn plus which marks and glyphs were
  emitted for it;
* `int(float(s))` on a note's string index either yields an integer or raises
  `ValueError`; a value on which `float` raises is `JsonNum.malformed`, and
  the renderer propagates the failure as `Except.error` exactly where the
  Python exception would propagate (there is no try/except in `convert`);
* a beat duration denominator of `0` would raise in Python; the `ℚ` model
  divides by zero silently, so theorems that depend on duration fractions
  carry a nonzero-denominator hypothesis.
-/

set_option maxRecDepth 100000

namespace Tab

/-- Rendering failure: the `ValueError` raised by `int(float(s))` on a
non-numeric string index (the only exception path the claims exercise). -/
inductive RenderErr where
  | valueError
deriving DecidableEq, Repr

deriving instance DecidableEq for Except

/-- A numeric JSON field as consumed by `int(float(s))`: either a value
`float` accepts (int, float, numeric string), or one on which it raises. -/
inductive JsonNum where
  | num (q : ℚ)
  | malformed
deriving DecidableEq, Repr

/-- Python `int(float(s))` — truncation toward zero, `none` when `float`
raises (line 288 / line 156 of the source). -/
def intFloat : JsonNum → Option ℤ
  | .num q => some (Int.tdiv q.num (q.den : ℤ))
  | .malformed => none

/-- A tempo breakpoint from `automations.tempo`; `measure` and `bpm` are read
with `.get('measure', 0)` and `.get('bpm', 120)`. -/
structure TempoChange where
  measure : Option ℤ
  bpm : Option ℤ
deriving DecidableEq, Repr

/-- A note: `rest` flag, optional `fret` value, optional `string` index
(absent means the default `0` of `note.get('string', 0)`). -/
structure Note where
  rest : Bool
  fret : Option ℤ
  string : Option JsonNum
deriving DecidableEq, Repr

/-- A beat: optional `duration` pair (default `[1, 4]`), optional duration
`type` (default `4`), beam flags (read but unused), and its notes. -/
structure Beat where
  duration : Option (ℤ × ℤ)
  type : Option ℤ
  beamStart : Bool
  beamStop : Bool
  notes : List Note
deriving DecidableEq, Repr

/-- A voice is its list of beats (`voice.get('beats', [])`). -/
structure Voice where
  beats : List Beat
deriving DecidableEq, Repr

/-- A time signature pair. -/
abbrev Sig := ℤ × ℤ

/-- A measure: `rest` flag, optional `signature`, and its voices. -/
structure Measure where
  rest : Bool
  signature : Option Sig
  voices : List Voice
deriving DecidableEq, Repr

/-- The parsed JSON tab document as `convert` reads it. -/
structure Doc where
  measures : List Measure
  tempo : List TempoChange
  strings : Option ℤ
  tuning : Option (List ℤ)
  instrument : Option String
deriving DecidableEq, Repr

/-- The optional caller-supplied track metadata. -/
structure TrackInfo where
  title : Option String
  artist : Option String
  instrument : Option String
  tuning : Option (List ℤ)
deriving DecidableEq, Repr

/-! ## Layout constants (`TabToPDF.__init__`, lines 52-62) -/

/-- One reportlab millimetre in points: `72 / 25.4`. -/
def mmQ : ℚ := 360 / 127

/-- A4 page width (`210 * mm`). -/
def pageWidth : ℚ := 210 * mmQ

/-- A4 page height (`297 * mm`). -/
def pageHeight : ℚ := 297 * mmQ

/-- `self.margin = 15 * mm`. -/
def marginC : ℚ := 15 * mmQ

/-- `self.string_spacing = 3.2 * mm`. -/
def stringSpacing : ℚ := (32 / 10) * mmQ

/-- `self.measures_per_line = 4`. -/
def measuresPerLine : ℕ := 4

/-- `self.line_spacing = 18 * mm`. -/
def lineSpacingC : ℚ := 18 * mmQ

/-- `usable_width = page_width - 2 * margin - 15 * mm` (line 186). -/
def usableWidth : ℚ := pageWidth - 2 * marginC - 15 * mmQ

/-- `measure_width = usable_width / measures_per_line` (line 187). -/
def measureWidth : ℚ := usableWidth / (measuresPerLine : ℚ)

/-- `tab_x_start = margin + 15 * mm` (line 189). -/
def tabXStart : ℚ := marginC + 15 * mmQ

/-- The y position of the first tab line: the header block unconditionally
lowers `y` by `7mm + 5mm + 8mm` from `page_height - margin`
(lines 164-182). -/
def headerBottomY : ℚ := pageHeight - marginC - 20 * mmQ

/-- The y cursor after a page break: `page_height - margin - 10 * mm`
(line 210). -/
def pageTopLater : ℚ := pageHeight - marginC - 10 * mmQ

/-- The width inside a measure available to beats:
`usable_measure_width = measure_width - 6 * mm` (line 267). -/
def usableMeasureWidth : ℚ := measureWidth - 6 * mmQ

/-- `line_height = num_strings * string_spacing + line_spacing` (line 193). -/
def lineHeightFor (numStrings : ℤ) : ℚ :=
  (numStrings : ℚ) * stringSpacing + lineSpacingC

/-! ## Document normalization helpers -/

/-- Python `'drum' in s` on a list of characters. -/
def startsWithDrumChars : List Char → Bool
  | 'd' :: 'r' :: 'u' :: 'm' :: _ => true
  | _ => false

/-- Scan for the substring `"drum"` anywhere in a character list. -/
def hasDrumSub : List Char → Bool
  | [] => false
  | c :: cs => startsWithDrumChars (c :: cs) || hasDrumSub cs

/-- Python `'drum' in s.lower()` (ASCII lowering). -/
def containsDrum (s : String) : Bool :=
  hasDrumSub (s.toList.map Char.toLower)

/-- Lines 143-147: percussion mode is on when `track_info['instrument']`
contains "drum" (case-insensitive), else when the document's `instrument`
field is present, non-empty and contains "drum". -/
def resolveIsDrums (ti : Option TrackInfo) (d : Doc) : Bool :=
  let fromTi :=
    match ti with
    | some t => containsDrum (t.instrument.getD "")
    | none => false
  if fromTi then true
  else
    match d.instrument with
    | some s => if s = "" then false else containsDrum s
    | none => false

/-- Lines 137-139: `num_strings = data.get('strings', 6)`, overridden by
`len(track_info['tuning'])` when the track info supplies a non-empty
tuning. -/
def resolveNumStringsBase (ti : Option TrackInfo) (d : Doc) : ℤ :=
  let n := d.strings.getD 6
  match ti with
  | some t =>
    match t.tuning with
    | some tun => if tun.isEmpty then n else (tun.length : ℤ)
    | none => n
  | none => n

/-- Line 141: `tuning = data.get('tuning', track_info.get('tuning') if
track_info else None)`. -/
def resolveTuning (ti : Option TrackInfo) (d : Doc) : Option (List ℤ) :=
  match d.tuning with
  | some t => some t
  | none =>
    match ti with
    | some t => t.tuning
    | none => none

/-- Concatenation of the images of `f`, used to flatten the nested
measure/voice/beat/note loops of the drum scan. -/
def concatMap (f : α → List β) : List α → List β
  | [] => []
  | a :: as => f a ++ concatMap f as

/-- The string fields visited by the percussion scan, in loop order
(lines 151-156): every note of every beat of every voice of the first 30
measures, each read with `note.get('string', 0)`. -/
def drumScanIndices (measures : List Measure) : List JsonNum :=
  concatMap
    (fun m =>
      concatMap
        (fun v =>
          concatMap (fun b => b.notes.map (fun n => n.string.getD (.num 0))) v.beats)
        m.voices)
    (measures.take 30)

/-- The fold `max_string = max(max_string, int(float(s)) + 1)` of line 156,
propagating the `ValueError` of a malformed index. -/
def drumMaxGo (acc : ℤ) : List JsonNum → Except RenderErr ℤ
  | [] => .ok acc
  | s :: rest =>
    match intFloat s with
    | none => .error .valueError
    | some i => drumMaxGo (max acc (i + 1)) rest

/-- Lines 150-156: the percussion scan starting from `max_string = 0`. -/
def drumMaxString (measures : List Measure) : Except RenderErr ℤ :=
  drumMaxGo 0 (drumScanIndices measures)

/-- Lines 137-157: the final `num_strings`, with the percussion override
`num_strings = max(max_string, 5)` when in drum mode. -/
def resolveNumStrings (ti : Option TrackInfo) (d : Doc) : Except RenderErr ℤ :=
  if resolveIsDrums ti d then
    match drumMaxString d.measures with
    | .error e => .error e
    | .ok m => .ok (max m 5)
  else .ok (resolveNumStringsBase ti d)

/-- `_find_first_content_measure` (lines 64-69): index of the first measure
whose `rest` flag is unset, else 0. -/
def findFirstContentMeasure (measures : List Measure) : ℕ :=
  match measures.findIdx? (fun m => !m.rest) with
  | some i => i
  | none => 0

/-! ## Tempo resolution (`_get_tempo_at_measure`, lines 71-80) -/

/-- The loop of `_get_tempo_at_measure`: walk the breakpoints, taking each
bpm while its measure index is `≤ measure_idx`, and stop at the first
breakpoint beyond it. -/
def tempoGo (idx : ℤ) (cur : ℤ) : List TempoChange → ℤ
  | [] => cur
  | tc :: rest =>
    if tc.measure.getD 0 ≤ idx then tempoGo idx (tc.bpm.getD 120) rest
    else cur

/-- `_get_tempo_at_measure(automations, measure_idx)`, default 120 bpm. -/
def getTempoAtMeasure (tempo : List TempoChange) (measureIdx : ℕ) : ℤ :=
  tempoGo (measureIdx : ℤ) 120 tempo

/-! ## Rhythm stems (`_draw_rhythm_stem`, lines 82-101) -/

/-- Number of flag strokes drawn on a rhythm stem for a duration type
(lines 91-101): one at type 8, two at 16, three at ≥ 32, none otherwise. -/
def flagCount (durationType : ℤ) : ℕ :=
  if durationType ≥ 8 then
    if durationType = 8 then 1
    else if durationType = 16 then 2
    else if durationType ≥ 32 then 3
    else 0
  else 0

/-! ## The layout state machine (`convert`'s loop state)

The Python loop carries mutable variables `current_x`, `current_y`,
`measure_count`, `current_signature`, `last_shown_tempo`, `is_first_line`
and an implicit page counter (a page ends at each `c.showPage()`).
`CoreState` is that state; `coreStep` is one loop iteration minus the
per-beat drawing, which is handled separately because only it can fail. -/

structure CoreState where
  cx : ℚ
  cy : ℚ
  cnt : ℕ
  sig : Option Sig
  lastTempo : Option ℤ
  firstLine : Bool
  page : ℕ
deriving DecidableEq, Repr

/-- What the renderer records about one rendered measure: the cursor state
it was drawn at, the active signature after the measure's own update, and
which line-start marks were emitted for it. -/
structure CoreEntry where
  idx : ℕ
  cnt : ℕ
  page : ℕ
  x : ℚ
  y : ℚ
  firstLine : Bool
  sig : Option Sig
  sigDrawn : Bool
  tempoDrawn : Option ℤ
deriving DecidableEq, Repr

/-- Lines 202-211: when the line is full, reset the count and x, move y down
one line height and clear the first-line flag; if the new y is too low,
emit the page and reset the cursor to the top of a fresh page. -/
def coreWrap (lh : ℚ) (s : CoreState) : CoreState :=
  if s.cnt ≥ measuresPerLine then
    let s1 : CoreState :=
      { s with cnt := 0, cx := tabXStart, cy := s.cy - lh, firstLine := false }
    if s1.cy < marginC + lh then
      { s1 with page := s1.page + 1, cy := pageTopLater, firstLine := true }
    else s1
  else s

/-- Lines 213-215: `measure.get('signature', current_signature)` followed by
`if measure_signature: current_signature = measure_signature` (a signature
pair is always truthy). -/
def updatedSignature (msig : Option Sig) (cur : Option Sig) : Option Sig :=
  match msig with
  | some v => some v
  | none => cur

/-- Lines 236-239 (inside the `measure_count == 0` block): compute the
active tempo and draw the marking when it differs from the last drawn
value.  Returns (mark drawn, new `last_shown_tempo`). -/
def tempoDecision (tempo : List TempoChange) (idx : ℕ) (lineStart : Bool)
    (last : Option ℤ) : Option ℤ × Option ℤ :=
  if lineStart then
    let t := getTempoAtMeasure tempo idx
    if some t ≠ last then (some t, some t) else (none, last)
  else (none, last)

/-- One iteration of the measure loop without the beat drawing: line wrap,
signature carry-forward, and the line-start block (string labels have no
recorded effect; the time signature is drawn when
`current_signature and (is_first_line or measure_idx == start_measure)`,
line 233; the tempo marking per `tempoDecision`).  Afterwards the cursor
advances one measure width and the count increments (lines 310-311). -/
def coreStep (lh : ℚ) (tempo : List TempoChange) (start idx : ℕ)
    (msig : Option Sig) (s : CoreState) : CoreEntry × CoreState :=
  let s1 := coreWrap lh s
  let sig' := updatedSignature msig s1.sig
  let lineStart := s1.cnt == 0
  let sigDrawn := lineStart && sig'.isSome && (s1.firstLine || idx == start)
  let td := tempoDecision tempo idx lineStart s1.lastTempo
  (⟨idx, s1.cnt, s1.page, s1.cx, s1.cy, s1.firstLine, sig', sigDrawn, td.1⟩,
   { s1 with
      cx := s1.cx + measureWidth, cnt := s1.cnt + 1, sig := sig',
      lastTempo := td.2 })

/-- The pure part of the whole measure loop: the entries it would record and
the final state, ignoring beat drawing.  `coreRun` consumes the measures'
signatures only, because nothing else in a measure affects the loop
state. -/
def coreRun (lh : ℚ) (tempo : List TempoChange) (start : ℕ) :
    ℕ → List (Option Sig) → CoreState → List CoreEntry × CoreState
  | _, [], s => ([], s)
  | idx, g :: gs, s =>
    let p := coreStep lh tempo start idx g s
    let q := coreRun lh tempo start (idx + 1) gs p.2
    (p.1 :: q.1, q.2)

/-! ## Beat drawing (lines 259-308) -/

/-- The duration fraction of a beat:
`b.get('duration', [1,4])[0] / b.get('duration', [1,4])[1]` (line 263). -/
def durationFrac (b : Beat) : ℚ :=
  let d := b.duration.getD (1, 4)
  (d.1 : ℚ) / (d.2 : ℚ)

/-- `total_duration = sum(...)` over the first voice's beats (line 263). -/
def totalDurationOf (beats : List Beat) : ℚ :=
  (beats.map durationFrac).sum

/-- The width allocated to each beat, in order (lines 263-273): each beat
gets `usable * ((d0/d1) / total)`, with a zero total replaced by 1. -/
def beatWidthsList (usable : ℚ) (beats : List Beat) : List ℚ :=
  let total0 := totalDurationOf beats
  let total := if total0 = 0 then 1 else total0
  beats.map (fun b => usable * (durationFrac b / total))

/-- The note loop of one beat (lines 280-299): skip rests and notes without
a fret; otherwise mark the beat as having notes, coerce the string index
(raising on a malformed one, line 288), and draw the fret text only when
the index is below `num_strings`.  Returns the `has_notes` flag and the
positions (indices into the note list) of the drawn fret texts. -/
def drawNotesGo (ns : ℤ) (j : ℕ) (hasNotes : Bool) :
    List Note → Except RenderErr (Bool × List ℕ)
  | [] => .ok (hasNotes, [])
  | n :: more =>
    if n.rest then drawNotesGo ns (j + 1) hasNotes more
    else
      match n.fret with
      | none => drawNotesGo ns (j + 1) hasNotes more
      | some _ =>
        match intFloat (n.string.getD (.num 0)) with
        | none => .error .valueError
        | some si =>
          if si < ns then
            match drawNotesGo ns (j + 1) true more with
            | .error e => .error e
            | .ok (h, l) => .ok (h, j :: l)
          else drawNotesGo ns (j + 1) true more

/-- The note loop started with `has_notes = False`. -/
def drawNotes (ns : ℤ) (notes : List Note) : Except RenderErr (Bool × List ℕ) :=
  drawNotesGo ns 0 false notes

/-- The beat loop (lines 270-308): allocate each beat its width, draw its
notes, and when the beat had any drawable note draw one rhythm stem
carrying `flagCount` flags for the beat's duration type (default 4).
Returns drawn fret glyphs as (beat index, note index) pairs, stems as
(beat index, flag count) pairs, and the allocated widths. -/
def beatsGo (ns : ℤ) (total usable : ℚ) (bx : ℚ) (i : ℕ) :
    List Beat → Except RenderErr (List (ℕ × ℕ) × List (ℕ × ℕ) × List ℚ)
  | [] => .ok ([], [], [])
  | b :: bs =>
    let w := usable * (durationFrac b / total)
    match drawNotes ns b.notes with
    | .error e => .error e
    | .ok (hasNotes, drawn) =>
      let stem := if hasNotes then [(i, flagCount (b.type.getD 4))] else []
      match beatsGo ns total usable (bx + w) (i + 1) bs with
      | .error e => .error e
      | .ok (g, st, ws) =>
        .ok (drawn.map (fun j => (i, j)) ++ g, stem ++ st, w :: ws)

/-- Lines 259-308: only the first voice is rendered, and only when it has a
non-empty beat list; `total_duration` of zero is replaced by 1. -/
def renderMeasureBeats (ns : ℤ) (cx : ℚ) (m : Measure) :
    Except RenderErr (List (ℕ × ℕ) × List (ℕ × ℕ) × List ℚ) :=
  match m.voices with
  | [] => .ok ([], [], [])
  | v :: _ =>
    match v.beats with
    | [] => .ok ([], [], [])
    | b :: bs =>
      let beats := b :: bs
      let total0 := totalDurationOf beats
      let total := if total0 = 0 then 1 else total0
      beatsGo ns total usableMeasureWidth (cx + 3 * mmQ) 0 beats

/-! ## The full measure loop -/

/-- One rendered measure's recorded output: the loop-state snapshot plus the
beat-level events. -/
structure MeasureTrace where
  core : CoreEntry
  glyphs : List (ℕ × ℕ)
  stems : List (ℕ × ℕ)
  widths : List ℚ
deriving DecidableEq, Repr

structure LoopState where
  core : CoreState
  trace : List MeasureTrace
deriving DecidableEq, Repr

/-- One full iteration of the loop body (lines 199-311): the pure state step
plus the beat drawing, which may raise and then aborts the whole render. -/
def renderMeasure (ns : ℤ) (lh : ℚ) (tempo : List TempoChange)
    (start idx : ℕ) (m : Measure) (st : LoopState) :
    Except RenderErr LoopState :=
  let p := coreStep lh tempo start idx m.signature st.core
  match renderMeasureBeats ns p.1.x m with
  | .error e => .error e
  | .ok (g, stems, ws) =>
    .ok ⟨p.2, st.trace ++ [⟨p.1, g, stems, ws⟩]⟩

/-- `for measure_idx in range(start_measure, len(measures))` (line 199). -/
def renderLoop (ns : ℤ) (lh : ℚ) (tempo : List TempoChange) (start : ℕ) :
    ℕ → List Measure → LoopState → Except RenderErr LoopState
  | _, [], st => .ok st
  | idx, m :: ms, st =>
    match renderMeasure ns lh tempo start idx m st with
    | .error e => .error e
    | .ok st1 => renderLoop ns lh tempo start (idx + 1) ms st1

/-- The paginated output: the page count (`c.save()` flushes the final page,
so pages = page breaks + 1) and the per-measure trace. -/
structure RenderOut where
  pages : ℕ
  trace : List MeasureTrace
deriving DecidableEq, Repr

/-- `TabToPDF.convert` (lines 122-314): return `None` without writing any
output when the document has no measures; otherwise normalize, find the
start measure, and run the layout loop over the remaining measures.  A
`ValueError` on a malformed string index propagates out, aborting the whole
render with no output saved. -/
def convert (d : Doc) (ti : Option TrackInfo) :
    Except RenderErr (Option RenderOut) :=
  if d.measures.isEmpty then .ok none
  else
    match resolveNumStrings ti d with
    | .error e => .error e
    | .ok ns =>
      let start := findFirstContentMeasure d.measures
      let lh := lineHeightFor ns
      let s0 : CoreState :=
        ⟨tabXStart, headerBottomY, 0, none, none, true, 0⟩
      match renderLoop ns lh d.tempo start start (d.measures.drop start) ⟨s0, []⟩ with
      | .error e => .error e
      | .ok fin => .ok (some ⟨fin.core.page + 1, fin.trace⟩)

/-! ## Output projections used by the claims -/

/-- The per-measure records of a successful render (empty on error or on the
empty-document no-op). -/
def outCores (r : Except RenderErr (Option RenderOut)) : List CoreEntry :=
  match r with
  | .ok (some o) => o.trace.map MeasureTrace.core
  | _ => []

/-- The page count of a successful render (0 otherwise). -/
def outPages (r : Except RenderErr (Option RenderOut)) : ℕ :=
  match r with
  | .ok (some o) => o.pages
  | _ => 0

/-- The per-measure beat widths of a successful render. -/
def outWidths (r : Except RenderErr (Option RenderOut)) : List (List ℚ) :=
  match r with
  | .ok (some o) => o.trace.map MeasureTrace.widths
  | _ => []

/-- The per-measure stem events of a successful render. -/
def outStems (r : Except RenderErr (Option RenderOut)) : List (List (ℕ × ℕ)) :=
  match r with
  | .ok (some o) => o.trace.map MeasureTrace.stems
  | _ => []

/-- The per-measure drawn fret glyphs of a successful render. -/
def outGlyphs (r : Except RenderErr (Option RenderOut)) : List (List (ℕ × ℕ)) :=
  match r with
  | .ok (some o) => o.trace.map MeasureTrace.glyphs
  | _ => []

/-- The render reached `c.save()` and wrote an output document. -/
def renderedOk (r : Except RenderErr (Option RenderOut)) : Prop :=
  ∃ o, r = .ok (some o)

/-- The tempo markings of a list of measure records, as
(measure index, bpm) pairs in drawing order. -/
def tempoMarksOf (es : List CoreEntry) : List (ℕ × ℤ) :=
  es.filterMap (fun e => e.tempoDrawn.map (fun b => (e.idx, b)))

/-! ## Simulation: the successful render's records are `coreRun`'s -/

/-- The loop-state part of a successful render is the pure `coreRun` of the
measures' signatures: beat drawing can only abort the render, never change
the layout state. -/
theorem renderLoop_ok_core (ns : ℤ) (lh : ℚ) (tempo : List TempoChange)
    (start : ℕ) :
    ∀ (ms : List Measure) (idx : ℕ) (st st' : LoopState),
    renderLoop ns lh tempo start idx ms st = .ok st' →
    st'.trace.map MeasureTrace.core
      = st.trace.map MeasureTrace.core
        ++ (coreRun lh tempo start idx (ms.map Measure.signature) st.core).1
    ∧ st'.core = (coreRun lh tempo start idx (ms.map Measure.signature) st.core).2 := by
  intro ms
  induction ms with
  | nil =>
    intro idx st st' h
    simp only [renderLoop, Except.ok.injEq] at h
    subst h
    simp [coreRun]
  | cons m ms ih =>
    intro idx st st' h
    simp only [renderLoop] at h
    cases hm : renderMeasure ns lh tempo start idx m st with
    | error e => rw [hm] at h; exact absurd h (by simp)
    | ok st1 =>
      rw [hm] at h
      obtain ⟨h1, h2⟩ := ih (idx + 1) st1 st' h
      rw [renderMeasure] at hm
      cases hb : renderMeasureBeats ns
          (coreStep lh tempo start idx m.signature st.core).1.x m with
      | error e => rw [hb] at hm; exact absurd hm (by simp)
      | ok tr =>
        obtain ⟨g, stems, ws⟩ := tr
        rw [hb] at hm
        simp only [Except.ok.injEq] at hm
        subst hm
        simp only [List.map_cons, List.map_append, List.map_nil] at h1
        constructor
        · rw [h1]
          simp [coreRun, List.append_assoc]
        · rw [h2]
          simp [coreRun]

/-- The beat widths a successful render records for each measure. -/
def measureBeatsOf (m : Measure) : List Beat :=
  match m.voices with
  | [] => []
  | v :: _ => v.beats

/-- On success the width components of `beatsGo` are the per-beat width
formula mapped over the beats. -/
theorem beatsGo_widths (ns : ℤ) (total usable : ℚ) :
    ∀ (bs : List Beat) (bx : ℚ) (i : ℕ) g st ws,
    beatsGo ns total usable bx i bs = .ok (g, st, ws) →
    ws = bs.map (fun b => usable * (durationFrac b / total)) := by
  intro bs
  induction bs with
  | nil =>
    intro bx i g st ws h
    simp only [beatsGo, Except.ok.injEq, Prod.mk.injEq] at h
    simp [← h.2.2]
  | cons b more ih =>
    intro bx i g st ws h
    simp only [beatsGo] at h
    cases hd : drawNotes ns b.notes with
    | error e => rw [hd] at h; exact absurd h (by simp)
    | ok pr =>
      obtain ⟨hasNotes, drawn⟩ := pr
      rw [hd] at h
      simp only at h
      cases hr : beatsGo ns total usable
          (bx + usable * (durationFrac b / total)) (i + 1) more with
      | error e => rw [hr] at h; exact absurd h (by simp)
      | ok tr =>
        obtain ⟨g2, st2, ws2⟩ := tr
        rw [hr] at h
        simp only [Except.ok.injEq, Prod.mk.injEq] at h
        have := ih _ _ _ _ _ hr
        simp [← h.2.2, this]

/-- On success `renderMeasureBeats` records exactly `beatWidthsList` of the
first voice's beats. -/
theorem renderMeasureBeats_widths (ns : ℤ) (cx : ℚ) (m : Measure)
    (g st : List (ℕ × ℕ)) (ws : List ℚ)
    (h : renderMeasureBeats ns cx m = .ok (g, st, ws)) :
    ws = beatWidthsList usableMeasureWidth (measureBeatsOf m) := by
  cases hv : m.voices with
  | nil =>
    simp only [renderMeasureBeats, hv, Except.ok.injEq, Prod.mk.injEq] at h
    simp [measureBeatsOf, hv, beatWidthsList, ← h.2.2]
  | cons v vs =>
    cases hbs : v.beats with
    | nil =>
      simp only [renderMeasureBeats, hv, hbs, Except.ok.injEq, Prod.mk.injEq] at h
      simp [measureBeatsOf, hv, hbs, beatWidthsList, ← h.2.2]
    | cons b bs =>
      simp only [renderMeasureBeats, hv, hbs] at h
      have := beatsGo_widths ns _ usableMeasureWidth (b :: bs) (cx + 3 * mmQ) 0 g st ws h
      simp [measureBeatsOf, hv, hbs, beatWidthsList, this, totalDurationOf]

/-- On success the per-measure width lists of the whole loop are
`beatWidthsList` mapped over the rendered measures. -/
theorem renderLoop_ok_widths (ns : ℤ) (lh : ℚ) (tempo : List TempoChange)
    (start : ℕ) :
    ∀ (ms : List Measure) (idx : ℕ) (st st' : LoopState),
    renderLoop ns lh tempo start idx ms st = .ok st' →
    st'.trace.map MeasureTrace.widths
      = st.trace.map MeasureTrace.widths
        ++ ms.map (fun m => beatWidthsList usableMeasureWidth (measureBeatsOf m)) := by
  intro ms
  induction ms with
  | nil =>
    intro idx st st' h
    simp only [renderLoop, Except.ok.injEq] at h
    subst h
    simp
  | cons m ms ih =>
    intro idx st st' h
    simp only [renderLoop] at h
    cases hm : renderMeasure ns lh tempo start idx m st with
    | error e => rw [hm] at h; exact absurd h (by simp)
    | ok st1 =>
      rw [hm] at h
      have h1 := ih (idx + 1) st1 st' h
      rw [renderMeasure] at hm
      cases hb : renderMeasureBeats ns
          (coreStep lh tempo start idx m.signature st.core).1.x m with
      | error e => rw [hb] at hm; exact absurd hm (by simp)
      | ok tr =>
        obtain ⟨g, stems, ws⟩ := tr
        rw [hb] at hm
        simp only [Except.ok.injEq] at hm
        subst hm
        have hw := renderMeasureBeats_widths ns _ m g stems ws hb
        simp only [List.map_append, List.map_cons, List.map_nil] at h1
        rw [h1, hw]
        simp [List.append_assoc]

/-- Scaled sum: mapping `u * (durationFrac b / T)` and summing factors the
constants out of the list sum. -/
theorem sum_map_mul_div (u T : ℚ) (l : List Beat) :
    (l.map (fun b => u * (durationFrac b / T))).sum
      = u * ((l.map durationFrac).sum / T) := by
  induction l with
  | nil => simp
  | cons b bs ih =>
    simp only [List.map_cons, List.sum_cons, ih]
    ring

/-- The sum of `beatWidthsList` in closed form. -/
theorem beatWidthsList_sum (usable : ℚ) (beats : List Beat) :
    (beatWidthsList usable beats).sum
      = usable * (totalDurationOf beats /
          (if totalDurationOf beats = 0 then 1 else totalDurationOf beats)) := by
  unfold beatWidthsList totalDurationOf
  exact sum_map_mul_div usable _ beats

/-- Destructor for a successful render: the string count resolved, the loop
ran to completion from the initial cursor state, and the output packages the
final state. -/
theorem convert_ok_elim (d : Doc) (ti : Option TrackInfo) (o : RenderOut)
    (h : convert d ti = .ok (some o)) :
    ∃ ns fin, resolveNumStrings ti d = .ok ns
      ∧ renderLoop ns (lineHeightFor ns) d.tempo
          (findFirstContentMeasure d.measures)
          (findFirstContentMeasure d.measures)
          (d.measures.drop (findFirstContentMeasure d.measures))
          ⟨⟨tabXStart, headerBottomY, 0, none, none, true, 0⟩, []⟩ = .ok fin
      ∧ o = ⟨fin.core.page + 1, fin.trace⟩ := by
  rw [convert] at h
  cases he : d.measures.isEmpty with
  | true => rw [he] at h; simp at h
  | false =>
    rw [he] at h
    simp only [Bool.false_eq_true, if_false] at h
    cases hns : resolveNumStrings ti d with
    | error e => rw [hns] at h; exact absurd h (by simp)
    | ok ns =>
      rw [hns] at h
      simp only at h
      cases hl : renderLoop ns (lineHeightFor ns) d.tempo
          (findFirstContentMeasure d.measures)
          (findFirstContentMeasure d.measures)
          (d.measures.drop (findFirstContentMeasure d.measures))
          ⟨⟨tabXStart, headerBottomY, 0, none, none, true, 0⟩, []⟩ with
      | error e => rw [hl] at h; exact absurd h (by simp)
      | ok fin =>
        rw [hl] at h
        simp only [Except.ok.injEq, Option.some.injEq] at h
        exact ⟨ns, fin, rfl, hl, h.symm⟩

/-! ## C9 — empty document is a no-op -/

/-- C9: a document with an empty `measures` list makes `convert` return
`None` immediately (line 131-133): no canvas is created, no pages are
produced, no output artifact is written, and no error is raised. -/
theorem c9_empty_doc (d : Doc) (ti : Option TrackInfo)
    (h : d.measures = []) : convert d ti = .ok none := by
  rw [convert]
  simp [h]

/-- Witness for C9 at the concrete empty document. -/
theorem c9_empty_doc_witness :
    Doc.measures ⟨[], [], none, none, none⟩ = []
    ∧ convert ⟨[], [], none, none, none⟩ none = .ok none :=
  ⟨rfl, c9_empty_doc ⟨[], [], none, none, none⟩ none rfl⟩

/-! ## C1 — beat width allocation -/

/-- A beat of duration 0/4, making the measure's total duration zero. -/
def zeroDurBeat : Beat := ⟨some (0, 4), some 4, false, false, []⟩

/-- Counterexample to C1 as stated: in the zero-total-duration edge case the
per-beat widths do NOT sum to the measure's width — every beat gets width
`usable * ((0/4) / 1) = 0`, so the sum is 0 while the width available to
beats is the nonzero `usableMeasureWidth`. -/
theorem c1_zero_total_refuted :
    (beatWidthsList usableMeasureWidth [zeroDurBeat]).sum = 0
    ∧ usableMeasureWidth ≠ 0 := by
  constructor
  · with_unfolding_all decide
  · with_unfolding_all decide

/-- C1 (amended): each rendered measure's recorded beat widths are
`beatWidthsList` of its first voice's beats (widths
`usable * ((num/den) / total)` with a zero total replaced by 1), and the
widths sum to the full usable width whenever the total duration is nonzero;
in the zero-total edge case they sum to 0 instead.  The nonzero-denominator
hypothesis marks where Python would raise `ZeroDivisionError` while the `ℚ`
model divides silently. -/
theorem c1_width_sum_amended :
    (∀ (d : Doc) (ti : Option TrackInfo), renderedOk (convert d ti) →
      outWidths (convert d ti)
        = (d.measures.drop (findFirstContentMeasure d.measures)).map
            (fun m => beatWidthsList usableMeasureWidth (measureBeatsOf m)))
    ∧ (∀ (usable : ℚ) (beats : List Beat),
        (∀ b ∈ beats, (b.duration.getD (1, 4)).2 ≠ 0) →
        (totalDurationOf beats ≠ 0 →
          (beatWidthsList usable beats).sum = usable)
        ∧ (totalDurationOf beats = 0 →
          (beatWidthsList usable beats).sum = 0)) := by
  constructor
  · intro d ti hok
    obtain ⟨o, ho⟩ := hok
    obtain ⟨ns, fin, _, hl, hfin⟩ := convert_ok_elim d ti o ho
    have hw := renderLoop_ok_widths ns (lineHeightFor ns) d.tempo
      (findFirstContentMeasure d.measures)
      (d.measures.drop (findFirstContentMeasure d.measures))
      (findFirstContentMeasure d.measures) _ fin hl
    simp only [List.map_nil, List.nil_append] at hw
    rw [ho]
    simp only [outWidths, hfin]
    exact hw
  · intro usable beats _
    constructor
    · intro hnz
      rw [beatWidthsList_sum, if_neg hnz, div_self hnz, mul_one]
    · intro hz
      rw [beatWidthsList_sum, hz]
      simp

/-- Witness for C1 (amended) at concrete inputs: a two-beat measure of
durations 1/4 and 1/2 has widths summing to the usable width, and a
successful concrete render records `beatWidthsList` per measure. -/
theorem c1_width_sum_amended_witness :
    (∀ b ∈ [Beat.mk (some (1, 4)) (some 4) false false [],
            Beat.mk (some (1, 2)) (some 8) false false []],
        (b.duration.getD (1, 4)).2 ≠ 0)
    ∧ totalDurationOf [Beat.mk (some (1, 4)) (some 4) false false [],
        Beat.mk (some (1, 2)) (some 8) false false []] ≠ 0
    ∧ (beatWidthsList 4 [Beat.mk (some (1, 4)) (some 4) false false [],
        Beat.mk (some (1, 2)) (some 8) false false []]).sum = 4
    ∧ renderedOk (convert ⟨[⟨false, none, []⟩], [], none, none, none⟩ none)
    ∧ outWidths (convert ⟨[⟨false, none, []⟩], [], none, none, none⟩ none)
      = ((Doc.mk [⟨false, none, []⟩] [] none none none).measures.drop
          (findFirstContentMeasure
            (Doc.mk [⟨false, none, []⟩] [] none none none).measures)).map
          (fun m => beatWidthsList usableMeasureWidth (measureBeatsOf m)) := by
  refine ⟨by decide, by with_unfolding_all decide,
    (c1_width_sum_amended.2 4 _ (by decide)).1 (by with_unfolding_all decide),
    ⟨_, by with_unfolding_all rfl⟩,
    c1_width_sum_amended.1 _ none ⟨_, by with_unfolding_all rfl⟩⟩

/-! ## C2 — malformed numeric fields -/

/-- A document with two measures whose first measure's first note carries a
non-numeric string index. -/
def c2doc : Doc :=
  ⟨[⟨false, none, [⟨[⟨some (1, 4), some 4, false, false,
      [⟨false, some 3, some .malformed⟩]⟩]⟩]⟩,
    ⟨false, none, []⟩], [], none, none, none⟩

/-- Counterexample to C2 as stated: a malformed numeric string index on a
single note aborts the whole render — `convert` propagates the
`ValueError` (there is no try/except anywhere in `convert`), nothing is
rendered, and the second measure never renders, instead of the glyph being
skipped and rendering continuing. -/
theorem c2_abort_refuted :
    convert c2doc none = .error .valueError
    ∧ c2doc.measures.length = 2
    ∧ outCores (convert c2doc none) = [] := by
  refine ⟨by with_unfolding_all decide, rfl, by with_unfolding_all decide⟩

/-- C2 (amended): a malformed numeric string index on the first drawable
note of the first rendered measure makes `convert` raise: the whole render
aborts with `ValueError` and produces no output.  The only recovery in the
program is the caller's per-track try/except in
`SongsterrDownloader.download` (lines 546-565), which logs the failure and
skips that track's PDF; `convert` itself recovers nothing. -/
theorem c2_malformed_amended (d : Doc) (ti : Option TrackInfo)
    (m : Measure) (ms : List Measure) (v : Voice) (vs : List Voice)
    (b : Beat) (bs : List Beat) (n : Note) (nmore : List Note) (f : ℤ)
    (hm : d.measures = m :: ms) (hrest : m.rest = false)
    (hv : m.voices = v :: vs) (hb : v.beats = b :: bs)
    (hn : b.notes = n :: nmore) (hnrest : n.rest = false)
    (hf : n.fret = some f) (hs : n.string = some .malformed) :
    convert d ti = .error .valueError := by
  have hdraw : ∀ ns : ℤ, drawNotes ns b.notes = .error .valueError := by
    intro ns
    rw [drawNotes, hn]
    simp [drawNotesGo, hnrest, hf, hs, intFloat]
  have hbeats : ∀ (ns : ℤ) (cx : ℚ),
      renderMeasureBeats ns cx m = .error .valueError := by
    intro ns cx
    simp only [renderMeasureBeats, hv, hb]
    simp only [beatsGo, hdraw ns]
  have hstart : findFirstContentMeasure d.measures = 0 := by
    rw [findFirstContentMeasure, hm]
    simp [List.findIdx?_cons, hrest]
  have hne : d.measures.isEmpty = false := by rw [hm]; rfl
  rw [convert, hne]
  simp only [Bool.false_eq_true, if_false]
  cases hdr : resolveIsDrums ti d with
  | true =>
    have htake : (m :: ms).take 30 = m :: ms.take 29 := rfl
    have hscan : drumMaxString d.measures = .error .valueError := by
      rw [drumMaxString, drumScanIndices, hm, htake]
      simp only [concatMap, hv, hb, hn, List.map_cons, hs, List.cons_append,
        List.append_assoc, Option.getD_some]
      simp [drumMaxGo, intFloat]
    have hr : resolveNumStrings ti d = .error .valueError := by
      rw [resolveNumStrings, if_pos hdr, hscan]
    rw [hr]
  | false =>
    have hr : resolveNumStrings ti d = .ok (resolveNumStringsBase ti d) := by
      rw [resolveNumStrings, if_neg (by simp [hdr])]
    rw [hr]
    simp only [hstart, List.drop_zero]
    rw [hm]
    simp only [renderLoop, renderMeasure, hbeats]

/-- Witness for C2 (amended) at the concrete document. -/
theorem c2_malformed_amended_witness :
    Doc.measures c2doc
      = ⟨false, none, [⟨[⟨some (1, 4), some 4, false, false,
          [⟨false, some 3, some .malformed⟩]⟩]⟩]⟩
        :: [⟨false, none, []⟩]
    ∧ convert c2doc none = .error .valueError :=
  ⟨rfl, c2_malformed_amended c2doc none _ _ _ _ _ _ _ _ 3
    rfl rfl rfl rfl rfl rfl rfl rfl⟩

/-! ## C7 — rhythm stems -/

/-- The `has_notes` flag a successful note loop reports is exactly "some
note is not a rest and has a fret value" — the flag is set (line 287)
before the `string_idx < num_strings` range check (line 289), so it does
not require the note's glyph to actually be drawn. -/
theorem drawNotesGo_hasNotes (ns : ℤ) :
    ∀ (notes : List Note) (j : ℕ) (h0 h : Bool) (g : List ℕ),
    drawNotesGo ns j h0 notes = .ok (h, g) →
    h = (h0 || notes.any (fun n => !n.rest && n.fret.isSome)) := by
  intro notes
  induction notes with
  | nil =>
    intro j h0 h g hh
    simp only [drawNotesGo, Except.ok.injEq, Prod.mk.injEq] at hh
    simp [← hh.1]
  | cons n more ih =>
    intro j h0 h g hh
    cases hr : n.rest with
    | true =>
      simp only [drawNotesGo, hr, if_true] at hh
      rw [ih _ _ _ _ hh]
      simp [List.any_cons, hr]
    | false =>
      simp only [drawNotesGo, hr, Bool.false_eq_true, if_false] at hh
      cases hf : n.fret with
      | none =>
        rw [hf] at hh
        rw [ih _ _ _ _ hh]
        simp [List.any_cons, hr, hf]
      | some fv =>
        rw [hf] at hh
        cases hsi : intFloat (n.string.getD (.num 0)) with
        | none => rw [hsi] at hh; exact absurd hh (by simp)
        | some si =>
          rw [hsi] at hh
          simp only at hh
          by_cases hlt : si < ns
          · rw [if_pos hlt] at hh
            cases hrec : drawNotesGo ns (j + 1) true more with
            | error e => rw [hrec] at hh; exact absurd hh (by simp)
            | ok pr =>
              obtain ⟨h2, l2⟩ := pr
              rw [hrec] at hh
              simp only [Except.ok.injEq, Prod.mk.injEq] at hh
              rw [← hh.1, ih _ _ _ _ hrec]
              simp [List.any_cons, hr, hf]
          · rw [if_neg hlt] at hh
            rw [ih _ _ _ _ hh]
            simp [List.any_cons, hr, hf]

/-- A beat with one non-rest note holding a fret value but a string index
out of range (string 10 of 6): the note draws no glyph, yet the beat still
gets a rhythm stem. -/
def c7doc : Doc :=
  ⟨[⟨false, none, [⟨[⟨some (1, 4), some 4, false, false,
      [⟨false, some 3, some (.num 10)⟩]⟩]⟩]⟩], [], none, none, none⟩

/-- Counterexample to C7 as stated: rendering `c7doc` draws no fret glyph
at all (the note's string index 10 is out of range for 6 strings), yet the
beat receives a rhythm stem (with 0 flags for duration type 4) — the stem
is NOT drawn "if and only if the beat contains at least one drawn note". -/
theorem c7_stem_without_glyph_refuted :
    outGlyphs (convert c7doc none) = [[]]
    ∧ outStems (convert c7doc none) = [[(0, 0)]] := by
  constructor
  · with_unfolding_all decide
  · with_unfolding_all decide

/-- C7 (amended): a rhythm stem is drawn for a beat exactly when the beat
contains at least one note that is not a rest and has a fret value —
whether or not that note's glyph is drawn (an out-of-range string index
suppresses the glyph but not the stem); the stem carries 0 flags below
duration class 8, 1 flag at 8, 2 at 16 and 3 at ≥ 32. -/
theorem c7_stem_amended :
    (∀ (ns : ℤ) (notes : List Note) (h : Bool) (g : List ℕ),
      drawNotes ns notes = .ok (h, g) →
      h = notes.any (fun n => !n.rest && n.fret.isSome))
    ∧ (∀ t : ℤ, t < 8 → flagCount t = 0)
    ∧ flagCount 8 = 1
    ∧ flagCount 16 = 2
    ∧ (∀ t : ℤ, 32 ≤ t → flagCount t = 3)
    ∧ (∀ (ns : ℤ) (total usable bx : ℚ) (i : ℕ) (b : Beat) (bs : List Beat)
        (g s : List (ℕ × ℕ)) (w : List ℚ),
        beatsGo ns total usable bx i (b :: bs) = .ok (g, s, w) →
        ∃ h dr g2 s2 w2,
          drawNotes ns b.notes = .ok (h, dr)
          ∧ beatsGo ns total usable (bx + usable * (durationFrac b / total))
              (i + 1) bs = .ok (g2, s2, w2)
          ∧ s = (if h then [(i, flagCount (b.type.getD 4))] else []) ++ s2
          ∧ g = dr.map (fun j => (i, j)) ++ g2) := by
  refine ⟨?_, ?_, rfl, rfl, ?_, ?_⟩
  · intro ns notes h g hh
    rw [drawNotesGo_hasNotes ns notes 0 false h g hh]
    simp
  · intro t ht
    rw [flagCount, if_neg (by omega)]
  · intro t ht
    rw [flagCount, if_pos (by omega), if_neg (by omega), if_neg (by omega),
      if_pos (by omega)]
  · intro ns total usable bx i b bs g s w hbg
    simp only [beatsGo] at hbg
    cases hd : drawNotes ns b.notes with
    | error e => rw [hd] at hbg; exact absurd hbg (by simp)
    | ok pr =>
      obtain ⟨hn0, dr⟩ := pr
      rw [hd] at hbg
      simp only at hbg
      cases hrec : beatsGo ns total usable
          (bx + usable * (durationFrac b / total)) (i + 1) bs with
      | error e => rw [hrec] at hbg; exact absurd hbg (by simp)
      | ok tr =>
        obtain ⟨g2, s2, w2⟩ := tr
        rw [hrec] at hbg
        simp only [Except.ok.injEq, Prod.mk.injEq] at hbg
        exact ⟨hn0, dr, g2, s2, w2, rfl, rfl, hbg.2.1.symm, hbg.1.symm⟩

/-- Witness for C7 (amended) at concrete inputs: the out-of-range note
yields `has_notes = true` with no drawn glyph, and the flag counts at the
claim's duration classes. -/
theorem c7_stem_amended_witness :
    drawNotes 6 [⟨false, some 3, some (.num 10)⟩] = .ok (true, [])
    ∧ (true : Bool)
        = [Note.mk false (some 3) (some (.num 10))].any
            (fun n => !n.rest && n.fret.isSome)
    ∧ (4 : ℤ) < 8
    ∧ flagCount 4 = 0
    ∧ (32 : ℤ) ≤ 40
    ∧ flagCount 40 = 3 := by
  refine ⟨by with_unfolding_all decide,
    c7_stem_amended.1 6 _ true [] (by with_unfolding_all decide),
    by decide, c7_stem_amended.2.1 4 (by decide),
    by decide, c7_stem_amended.2.2.2.2.1 40 (by decide)⟩

/-! ## C6 — percussion string-count inference -/

/-- When every scanned string field parses, the drum scan is the fold of
`max acc (index + 1)` over the parsed indices. -/
theorem drumMaxGo_ok :
    ∀ (l : List JsonNum) (acc : ℤ),
    (∀ s ∈ l, (intFloat s).isSome) →
    drumMaxGo acc l
      = .ok ((l.filterMap intFloat).foldl (fun a v => max a (v + 1)) acc) := by
  intro l
  induction l with
  | nil => intro acc _; simp [drumMaxGo]
  | cons s rest ih =>
    intro acc hall
    obtain ⟨v, hv⟩ := Option.isSome_iff_exists.mp (hall s (by simp))
    rw [drumMaxGo, hv]
    show drumMaxGo (max acc (v + 1)) rest = _
    rw [ih (max acc (v + 1)) (fun x hx => hall x (by simp [hx]))]
    simp [List.filterMap_cons, hv]

/-- The fold never drops below a lower bound of its accumulator. -/
theorem le_foldlMax (c : ℤ) :
    ∀ (l : List ℤ) (a : ℤ), c ≤ a →
    c ≤ l.foldl (fun a v => max a (v + 1)) a := by
  intro l
  induction l with
  | nil => intro a h; simpa using h
  | cons v rest ih =>
    intro a h
    exact ih (max a (v + 1)) (le_trans h (le_max_left _ _))

/-- Every member's successor bounds the fold from below. -/
theorem mem_le_foldlMax :
    ∀ (l : List ℤ) (a v : ℤ), v ∈ l →
    v + 1 ≤ l.foldl (fun a v => max a (v + 1)) a := by
  intro l
  induction l with
  | nil => intro a v h; simp at h
  | cons w rest ih =>
    intro a v h
    rcases List.mem_cons.mp h with h | h
    · subst h
      exact le_foldlMax (v + 1) rest _ (le_max_right _ _)
    · exact ih _ v h

/-- The fold stays below any upper bound of the accumulator and of every
member's successor. -/
theorem foldlMax_le :
    ∀ (l : List ℤ) (a M : ℤ), a ≤ M → (∀ v ∈ l, v + 1 ≤ M) →
    l.foldl (fun a v => max a (v + 1)) a ≤ M := by
  intro l
  induction l with
  | nil => intro a M h _; simpa using h
  | cons v rest ih =>
    intro a M h hall
    exact ih _ M (max_le h (hall v (by simp))) fun x hx => hall x (by simp [hx])

/-- C6: in percussion mode, when every string field scanned in the first 30
measures parses to a nonnegative index and `m` is the largest such index,
the resolved string count is `max (m + 1) 5`; and the document's declared
`strings` field has no influence on it. -/
theorem c6_percussion_strings (d : Doc) (ti : Option TrackInfo) (m : ℤ)
    (hdr : resolveIsDrums ti d = true)
    (hall : ∀ s ∈ drumScanIndices d.measures, (intFloat s).isSome)
    (hpos : ∀ v ∈ (drumScanIndices d.measures).filterMap intFloat, 0 ≤ v)
    (hmax : ((drumScanIndices d.measures).filterMap intFloat).maximum = some m) :
    resolveNumStrings ti d = .ok (max (m + 1) 5)
    ∧ ∀ sv : Option ℤ,
        resolveNumStrings ti { d with strings := sv }
          = resolveNumStrings ti d := by
  have hmem : m ∈ (drumScanIndices d.measures).filterMap intFloat :=
    List.maximum_mem hmax
  have hfold :
      ((drumScanIndices d.measures).filterMap intFloat).foldl
        (fun a v => max a (v + 1)) 0 = m + 1 := by
    apply le_antisymm
    · exact foldlMax_le _ 0 (m + 1)
        (by have := hpos m hmem; omega)
        (fun v hv => by
          have := List.le_maximum_of_mem hv hmax
          omega)
    · exact mem_le_foldlMax _ 0 m hmem
  constructor
  · rw [resolveNumStrings, if_pos hdr, drumMaxString,
      drumMaxGo_ok _ 0 hall, hfold]
  · intro sv
    have e1 : resolveIsDrums ti { d with strings := sv }
        = resolveIsDrums ti d := rfl
    have e2 : ({ d with strings := sv } : Doc).measures = d.measures := rfl
    simp only [resolveNumStrings, e1, e2, hdr, if_true]

/-- A percussion document whose largest referenced string index is 6. -/
def c6doc : Doc :=
  ⟨[⟨false, none, [⟨[⟨some (1, 4), some 8, false, false,
      [⟨false, some 1, some (.num 6)⟩, ⟨false, some 1, some (.num 2)⟩]⟩]⟩]⟩],
   [], some 6, none, some "Drums"⟩

/-- Witness for C6 at the concrete percussion document: max index 6 gives
`max (6 + 1) 5 = 7` strings, overriding the declared `strings = 6`. -/
theorem c6_percussion_strings_witness :
    resolveIsDrums none c6doc = true
    ∧ ((drumScanIndices c6doc.measures).filterMap intFloat).maximum = some 6
    ∧ resolveNumStrings none c6doc = .ok (max (6 + 1) 5)
    ∧ resolveNumStrings none { c6doc with strings := some 6 }
        = resolveNumStrings none c6doc := by
  have h := c6_percussion_strings c6doc none 6
    (by with_unfolding_all decide) (by with_unfolding_all decide)
    (by with_unfolding_all decide) (by with_unfolding_all decide)
  exact ⟨by with_unfolding_all decide, by with_unfolding_all decide,
    h.1, h.2 (some 6)⟩

/-! ## Projection lemmas for the layout state machine -/

theorem coreWrap_sig (lh : ℚ) (s : CoreState) :
    (coreWrap lh s).sig = s.sig := by
  simp only [coreWrap]; split_ifs <;> rfl

theorem coreWrap_lastTempo (lh : ℚ) (s : CoreState) :
    (coreWrap lh s).lastTempo = s.lastTempo := by
  simp only [coreWrap]; split_ifs <;> rfl

theorem coreWrap_cnt (lh : ℚ) (s : CoreState) :
    (coreWrap lh s).cnt = if s.cnt ≥ measuresPerLine then 0 else s.cnt := by
  simp only [coreWrap]; split_ifs <;> rfl

theorem coreStep_entry_sig (lh : ℚ) (tempo : List TempoChange)
    (start idx : ℕ) (g : Option Sig) (s : CoreState) :
    (coreStep lh tempo start idx g s).1.sig = updatedSignature g s.sig := by
  simp [coreStep, coreWrap_sig]

theorem coreStep_state_sig (lh : ℚ) (tempo : List TempoChange)
    (start idx : ℕ) (g : Option Sig) (s : CoreState) :
    (coreStep lh tempo start idx g s).2.sig = updatedSignature g s.sig := by
  simp [coreStep, coreWrap_sig]

/-! ## C8 — time signature carry-forward -/

/-- The sequence of active signatures the loop maintains, one per measure:
each measure's signature overrides when present, else the previous value
carries forward (lines 213-215 iterated). -/
def effSigsGo (cur : Option Sig) : List (Option Sig) → List (Option Sig)
  | [] => []
  | g :: gs => updatedSignature g cur :: effSigsGo (updatedSignature g cur) gs

/-- The active-signature component of the pure loop run is `effSigsGo`. -/
theorem coreRun_sigs (lh : ℚ) (tempo : List TempoChange) (start : ℕ) :
    ∀ (gs : List (Option Sig)) (idx : ℕ) (s : CoreState),
    ((coreRun lh tempo start idx gs s).1).map CoreEntry.sig
      = effSigsGo s.sig gs := by
  intro gs
  induction gs with
  | nil => intro idx s; rfl
  | cons g gs ih =>
    intro idx s
    simp only [coreRun, List.map_cons, effSigsGo]
    rw [coreStep_entry_sig, ih, coreStep_state_sig]

/-- Take the last element of a cons in terms of the tail's last element. -/
theorem getLast?_cons_eq {α : Type _} (a : α) (l : List α) :
    (a :: l).getLast?
      = some (match l.getLast? with | some w => w | none => a) := by
  induction l generalizing a with
  | nil => rfl
  | cons b m ih =>
    rw [List.getLast?_cons_cons, ih b]

/-- The spec's words: the active signature at measure `i` is the most
recent non-absent signature supplied by measure `i` or any earlier one. -/
def specActiveSig (sigs : List (Option Sig)) (i : ℕ) : Option Sig :=
  ((sigs.take (i + 1)).filterMap id).getLast?

/-- Generalized correspondence between the loop's carry-forward and the
most-recent-non-absent reading, for an arbitrary inherited signature. -/
theorem effSigsGo_get? :
    ∀ (sigs : List (Option Sig)) (cur : Option Sig) (i : ℕ),
    i < sigs.length →
    (effSigsGo cur sigs).get? i
      = some (match ((sigs.take (i + 1)).filterMap id).getLast? with
              | some v => some v
              | none => cur) := by
  intro sigs
  induction sigs with
  | nil => intro cur i h; simp at h
  | cons g gs ih =>
    intro cur i h
    cases i with
    | zero =>
      cases g with
      | none => simp [effSigsGo, updatedSignature, List.filterMap_cons]
      | some v => simp [effSigsGo, updatedSignature, List.filterMap_cons]
    | succ i =>
      have hlen : i < gs.length := by simpa using h
      simp only [effSigsGo, List.get?]
      rw [ih (updatedSignature g cur) i hlen]
      cases g with
      | none => simp [updatedSignature, List.take_succ_cons, List.filterMap_cons]
      | some v =>
        simp only [updatedSignature, List.take_succ_cons, List.filterMap_cons,
          id_eq]
        rw [getLast?_cons_eq]
        cases hgl : ((gs.take (i + 1)).filterMap id).getLast? <;> simp

/-- C8: the renderer's active signature at each rendered measure is the
most recent non-absent signature supplied by that measure or an earlier
rendered one; once set it is never reset to `none`; and on the spec's
example `[(4,4), None, (3,4), None]` the effective sequence is
`[(4,4), (4,4), (3,4), (3,4)]`. -/
theorem c8_signature_carry :
    (∀ (sigs : List (Option Sig)) (i : ℕ), i < sigs.length →
      (effSigsGo none sigs).get? i = some (specActiveSig sigs i))
    ∧ (∀ (cur : Option Sig) (gs : List (Option Sig)), cur.isSome →
        ∀ e ∈ effSigsGo cur gs, e.isSome)
    ∧ (∀ (d : Doc) (ti : Option TrackInfo), renderedOk (convert d ti) →
        (outCores (convert d ti)).map CoreEntry.sig
          = effSigsGo none
              ((d.measures.drop (findFirstContentMeasure d.measures)).map
                Measure.signature))
    ∧ effSigsGo none [some (4, 4), none, some (3, 4), none]
        = [some (4, 4), some (4, 4), some (3, 4), some (3, 4)] := by
  refine ⟨?_, ?_, ?_, by decide⟩
  · intro sigs i h
    rw [effSigsGo_get? sigs none i h, specActiveSig]
    cases ((sigs.take (i + 1)).filterMap id).getLast? <;> rfl
  · intro cur gs
    induction gs generalizing cur with
    | nil => intro _ e he; simp [effSigsGo] at he
    | cons g gs ih =>
      intro hcur e he
      have hup : (updatedSignature g cur).isSome := by
        cases g with
        | none => exact hcur
        | some v => rfl
      rcases List.mem_cons.mp he with he | he
      · rw [he]; exact hup
      · exact ih (updatedSignature g cur) hup e he
  · intro d ti hok
    obtain ⟨o, ho⟩ := hok
    obtain ⟨ns, fin, _, hl, hfin⟩ := convert_ok_elim d ti o ho
    have hc := renderLoop_ok_core ns (lineHeightFor ns) d.tempo
      (findFirstContentMeasure d.measures)
      (d.measures.drop (findFirstContentMeasure d.measures))
      (findFirstContentMeasure d.measures) _ fin hl
    have hs := coreRun_sigs (lineHeightFor ns) d.tempo
      (findFirstContentMeasure d.measures)
      ((d.measures.drop (findFirstContentMeasure d.measures)).map
        Measure.signature)
      (findFirstContentMeasure d.measures)
      ⟨tabXStart, headerBottomY, 0, none, none, true, 0⟩
    rw [ho]
    simp only [outCores, hfin]
    rw [hc.1]
    simp only [List.map_nil, List.nil_append, List.map_append]
    exact hs

/-- The spec's carry-forward example as a document: four measures with
signatures (4,4), absent, (3,4), absent. -/
def c8doc : Doc :=
  ⟨[⟨false, some (4, 4), []⟩, ⟨false, none, []⟩,
    ⟨false, some (3, 4), []⟩, ⟨false, none, []⟩], [], none, none, none⟩

/-- Witness for C8 at the spec's example. -/
theorem c8_signature_carry_witness :
    1 < ([some (4, 4), none, some (3, 4), none] : List (Option Sig)).length
    ∧ (effSigsGo none [some (4, 4), none, some (3, 4), none]).get? 1
        = some (specActiveSig [some (4, 4), none, some (3, 4), none] 1)
    ∧ (some ((4, 4) : Sig)).isSome = true
    ∧ (∀ e ∈ effSigsGo (some ((4, 4) : Sig)) [none, none], e.isSome)
    ∧ renderedOk (convert c8doc none)
    ∧ (outCores (convert c8doc none)).map CoreEntry.sig
        = effSigsGo none
            ((c8doc.measures.drop (findFirstContentMeasure c8doc.measures)).map
              Measure.signature) := by
  refine ⟨by decide, c8_signature_carry.1 _ 1 (by decide), rfl,
    c8_signature_carry.2.1 _ _ rfl, ⟨_, by with_unfolding_all rfl⟩,
    c8_signature_carry.2.2.1 c8doc none ⟨_, by with_unfolding_all rfl⟩⟩

/-! ## C3 / C10 — tempo marking machinery -/

/-- The measure indices at which the loop is at a line start
(`measure_count == 0` after the wrap of lines 202-211), starting from an
arbitrary incoming count `c`, current index `idx`, with `n` measures
remaining. -/
def lineStartIdxs : ℕ → ℕ → ℕ → List ℕ
  | _, _, 0 => []
  | c, idx, n + 1 =>
    (if (if c ≥ measuresPerLine then 0 else c) = 0 then [idx] else [])
      ++ lineStartIdxs ((if c ≥ measuresPerLine then 0 else c) + 1) (idx + 1) n

/-- The de-duplicated tempo markings over a list of line-start indices:
at each index the active tempo is drawn iff it differs from the last drawn
value; returns the markings and the final last-drawn value. -/
def dedupGo (tempo : List TempoChange) :
    Option ℤ → List ℕ → List (ℕ × ℤ) × Option ℤ
  | last, [] => ([], last)
  | last, i :: is =>
    if some (getTempoAtMeasure tempo i) ≠ last then
      ((i, getTempoAtMeasure tempo i)
          :: (dedupGo tempo (some (getTempoAtMeasure tempo i)) is).1,
       (dedupGo tempo (some (getTempoAtMeasure tempo i)) is).2)
    else dedupGo tempo last is

theorem tempoMarksOf_cons (e : CoreEntry) (es : List CoreEntry) :
    tempoMarksOf (e :: es)
      = (match e.tempoDrawn with
         | some b => (e.idx, b) :: tempoMarksOf es
         | none => tempoMarksOf es) := by
  cases h : e.tempoDrawn <;> simp [tempoMarksOf, List.filterMap_cons, h]

theorem coreStep_tempo_char (lh : ℚ) (tempo : List TempoChange)
    (start idx : ℕ) (g : Option Sig) (s : CoreState) :
    ((coreStep lh tempo start idx g s).1.tempoDrawn,
     (coreStep lh tempo start idx g s).2.lastTempo)
      = tempoDecision tempo idx ((coreWrap lh s).cnt == 0) s.lastTempo := by
  simp [coreStep, coreWrap_lastTempo]

/-- The tempo markings of the pure loop run are exactly the de-duplicated
markings over the line-start indices. -/
theorem coreRun_tempo (lh : ℚ) (tempo : List TempoChange) (start : ℕ) :
    ∀ (gs : List (Option Sig)) (idx : ℕ) (s : CoreState),
    tempoMarksOf ((coreRun lh tempo start idx gs s).1)
      = (dedupGo tempo s.lastTempo (lineStartIdxs s.cnt idx gs.length)).1
    ∧ ((coreRun lh tempo start idx gs s).2).lastTempo
      = (dedupGo tempo s.lastTempo (lineStartIdxs s.cnt idx gs.length)).2 := by
  intro gs
  induction gs with
  | nil => intro idx s; exact ⟨rfl, rfl⟩
  | cons g gs ih =>
    intro idx s
    have hstep := coreStep_tempo_char lh tempo start idx g s
    have hidx : (coreStep lh tempo start idx g s).1.idx = idx := rfl
    have hcnt : (coreStep lh tempo start idx g s).2.cnt
        = (if s.cnt ≥ measuresPerLine then 0 else s.cnt) + 1 := by
      rw [show (coreStep lh tempo start idx g s).2.cnt
            = (coreWrap lh s).cnt + 1 from rfl, coreWrap_cnt]
    simp only [coreRun, List.length_cons, lineStartIdxs]
    by_cases hLS : (if s.cnt ≥ measuresPerLine then 0 else s.cnt) = 0
    · rw [if_pos hLS]
      have hb : ((coreWrap lh s).cnt == 0) = true := by
        simp [coreWrap_cnt, hLS]
      rw [hb] at hstep
      simp only [tempoDecision, if_true] at hstep
      by_cases hne : some (getTempoAtMeasure tempo idx) ≠ s.lastTempo
      · rw [if_pos hne] at hstep
        have h1 : (coreStep lh tempo start idx g s).1.tempoDrawn
            = some (getTempoAtMeasure tempo idx) := congrArg Prod.fst hstep
        have h2 : (coreStep lh tempo start idx g s).2.lastTempo
            = some (getTempoAtMeasure tempo idx) := congrArg Prod.snd hstep
        obtain ⟨ihm, ihl⟩ := ih (idx + 1) (coreStep lh tempo start idx g s).2
        rw [h2, hcnt, hLS] at ihm ihl
        rw [tempoMarksOf_cons, h1, hidx]
        simp only [List.singleton_append, dedupGo, if_pos hne]
        rw [hLS]
        exact ⟨by rw [ihm]; exact rfl, by rw [ihl]; exact rfl⟩
      · rw [if_neg hne] at hstep
        have h1 : (coreStep lh tempo start idx g s).1.tempoDrawn = none :=
          congrArg Prod.fst hstep
        have h2 : (coreStep lh tempo start idx g s).2.lastTempo
            = s.lastTempo := congrArg Prod.snd hstep
        obtain ⟨ihm, ihl⟩ := ih (idx + 1) (coreStep lh tempo start idx g s).2
        rw [h2, hcnt, hLS] at ihm ihl
        rw [tempoMarksOf_cons, h1]
        simp only [List.singleton_append, dedupGo, if_neg hne]
        rw [hLS]
        exact ⟨by rw [ihm]; exact rfl, by rw [ihl]; exact rfl⟩
    · rw [if_neg hLS]
      have hb : ((coreWrap lh s).cnt == 0) = false := by
        simp [coreWrap_cnt, hLS]
      rw [hb] at hstep
      simp only [tempoDecision, Bool.false_eq_true, if_false] at hstep
      have h1 : (coreStep lh tempo start idx g s).1.tempoDrawn = none :=
        congrArg Prod.fst hstep
      have h2 : (coreStep lh tempo start idx g s).2.lastTempo
          = s.lastTempo := congrArg Prod.snd hstep
      obtain ⟨ihm, ihl⟩ := ih (idx + 1) (coreStep lh tempo start idx g s).2
      rw [h2, hcnt] at ihm ihl
      rw [tempoMarksOf_cons, h1]
      simp only [List.nil_append]
      exact ⟨ihm, ihl⟩

/-- Membership in `lineStartIdxs`: starting from a count `c ≤ 4`, the
line-start indices in the next `n` measures are exactly those congruent to
the effective count offset modulo `measuresPerLine`. -/
theorem lineStartIdxs_mem :
    ∀ (n c idx i : ℕ), c ≤ measuresPerLine →
    (i ∈ lineStartIdxs c idx n ↔
      idx ≤ i ∧ i < idx + n
        ∧ (i - idx + (if c ≥ measuresPerLine then 0 else c))
            % measuresPerLine = 0) := by
  intro n
  induction n with
  | zero =>
    intro c idx i hc
    have h4 : measuresPerLine = 4 := rfl
    rw [h4] at hc ⊢
    simp only [lineStartIdxs, List.not_mem_nil, false_iff]
    split_ifs <;> omega
  | succ n ih =>
    intro c idx i hc
    have h4 : measuresPerLine = 4 := rfl
    rw [h4] at hc
    simp only [lineStartIdxs, List.mem_append]
    rw [ih ((if c ≥ measuresPerLine then 0 else c) + 1) (idx + 1) i
      (by rw [h4]; split_ifs <;> omega)]
    rw [h4]
    split_ifs <;>
      simp only [List.mem_singleton, List.not_mem_nil, false_or, or_false] <;>
      omega

/-- The spec's words for the active tempo: the bpm of the most recent
breakpoint whose measure index is at most the current measure, default
120. -/
def specActiveTempo (tempo : List TempoChange) (idx : ℕ) : ℤ :=
  match (tempo.filter (fun tc => tc.measure.getD 0 ≤ (idx : ℤ))).getLast? with
  | some tc => tc.bpm.getD 120
  | none => 120

/-- With breakpoints sorted by measure index, the break-early loop of
`_get_tempo_at_measure` returns the most recent breakpoint at or before the
measure (or the inherited value when none qualifies). -/
theorem tempoGo_spec (idx : ℤ) :
    ∀ (tempo : List TempoChange) (cur : ℤ),
    List.Pairwise (fun a b => a.measure.getD 0 ≤ b.measure.getD 0) tempo →
    tempoGo idx cur tempo
      = match (tempo.filter
          (fun tc => tc.measure.getD 0 ≤ idx)).getLast? with
        | some tc => tc.bpm.getD 120
        | none => cur := by
  intro tempo
  induction tempo with
  | nil => intro cur _; rfl
  | cons tc rest ih =>
    intro cur hp
    rw [List.pairwise_cons] at hp
    by_cases hle : tc.measure.getD 0 ≤ idx
    · rw [tempoGo, if_pos hle, ih _ hp.2,
        List.filter_cons_of_pos (by simpa using hle), getLast?_cons_eq]
      cases hgl : (rest.filter
          (fun tc => decide (tc.measure.getD 0 ≤ idx))).getLast? <;>
        simp [hgl]
    · have hnil : rest.filter
          (fun tc => decide (tc.measure.getD 0 ≤ idx)) = [] := by
        rw [List.filter_eq_nil_iff]
        intro a ha
        have h1 := hp.1 a ha
        simp only [decide_eq_true_eq]
        omega
      rw [tempoGo, if_neg hle,
        List.filter_cons_of_neg (by simpa using hle), hnil]
      rfl

/-- A `findIdx?` hit, started from accumulator `k`, lies below
`k + length`. -/
theorem findIdx?_lt_length_aux {α : Type _} (p : α → Bool) :
    ∀ (l : List α) (k i : ℕ), List.findIdx? p l k = some i →
    i < k + l.length := by
  intro l
  induction l with
  | nil => intro k i h; simp [List.findIdx?] at h
  | cons a as ih =>
    intro k i h
    rw [List.findIdx?_cons] at h
    by_cases hpa : p a
    · rw [if_pos hpa] at h
      simp only [Option.some.injEq] at h
      simp only [List.length_cons]
      omega
    · rw [if_neg hpa] at h
      have := ih (k + 1) i h
      simp only [List.length_cons]
      omega

/-- A `findIdx?` hit is inside the list. -/
theorem findIdx?_lt_length {α : Type _} (p : α → Bool)
    (l : List α) (i : ℕ) (h : l.findIdx? p = some i) : i < l.length := by
  have := findIdx?_lt_length_aux p l 0 i h
  omega

/-- The start measure of a non-empty document is a valid index. -/
theorem findFirst_lt (ms : List Measure) (h : ms ≠ []) :
    findFirstContentMeasure ms < ms.length := by
  rw [findFirstContentMeasure]
  cases hf : ms.findIdx? (fun m => !m.rest) with
  | some i => exact findIdx?_lt_length _ ms i hf
  | none =>
    cases ms with
    | nil => exact absurd rfl h
    | cons a as => simp

/-- On a successful render the tempo markings are the de-duplicated active
tempos over the line-start indices of the rendered range. -/
theorem convert_tempoMarks (d : Doc) (ti : Option TrackInfo)
    (hok : renderedOk (convert d ti)) :
    tempoMarksOf (outCores (convert d ti))
      = (dedupGo d.tempo none
          (lineStartIdxs 0 (findFirstContentMeasure d.measures)
            (d.measures.length - findFirstContentMeasure d.measures))).1 := by
  obtain ⟨o, ho⟩ := hok
  obtain ⟨ns, fin, _, hl, hfin⟩ := convert_ok_elim d ti o ho
  have hc := renderLoop_ok_core ns (lineHeightFor ns) d.tempo
    (findFirstContentMeasure d.measures)
    (d.measures.drop (findFirstContentMeasure d.measures))
    (findFirstContentMeasure d.measures) _ fin hl
  have ht := (coreRun_tempo (lineHeightFor ns) d.tempo
    (findFirstContentMeasure d.measures)
    ((d.measures.drop (findFirstContentMeasure d.measures)).map
      Measure.signature)
    (findFirstContentMeasure d.measures)
    ⟨tabXStart, headerBottomY, 0, none, none, true, 0⟩).1
  rw [ho]
  simp only [outCores, hfin]
  rw [hc.1]
  simp only [List.map_nil, List.nil_append]
  rw [ht]
  simp [List.length_map, List.length_drop]

/-- Two tempo breakpoints: 120 bpm at measure 0 and 140 bpm at measure 1. -/
def c3tempo : List TempoChange := [⟨some 0, some 120⟩, ⟨some 1, some 140⟩]

/-- Five content measures with a tempo change at measure 1 (mid-line). -/
def c3doc : Doc :=
  ⟨[⟨false, none, []⟩, ⟨false, none, []⟩, ⟨false, none, []⟩,
    ⟨false, none, []⟩, ⟨false, none, []⟩], c3tempo, none, none, none⟩

/-- Counterexample to C3 as stated: the active tempo at measure 1 is 140,
which differs from the previously drawn 120, yet no marking is drawn at
measure 1 — the change is only drawn at measure 4, the next line start
(tempo is re-evaluated only when `measure_count == 0`, lines 236-239 being
inside the `if measure_count == 0` block of line 217). -/
theorem c3_midline_refuted :
    getTempoAtMeasure c3tempo 1 = 140
    ∧ getTempoAtMeasure c3tempo 0 = 120
    ∧ tempoMarksOf (outCores (convert c3doc none)) = [(0, 120), (4, 140)] := by
  refine ⟨by decide, by decide, by with_unfolding_all decide⟩

/-- C3 (amended): with breakpoints sorted by measure index, the active
tempo is the most recent breakpoint at or before the measure (default
120); but the marking is only re-evaluated at the first measure of each
4-measure line (indices congruent to the start measure mod 4), and drawn
there exactly when the active tempo differs from the last drawn value. -/
theorem c3_tempo_amended :
    (∀ (tempo : List TempoChange) (idx : ℕ),
      List.Pairwise (fun a b => a.measure.getD 0 ≤ b.measure.getD 0) tempo →
      getTempoAtMeasure tempo idx = specActiveTempo tempo idx)
    ∧ (∀ (d : Doc) (ti : Option TrackInfo), renderedOk (convert d ti) →
        tempoMarksOf (outCores (convert d ti))
          = (dedupGo d.tempo none
              (lineStartIdxs 0 (findFirstContentMeasure d.measures)
                (d.measures.length - findFirstContentMeasure d.measures))).1)
    ∧ (∀ (idx n i : ℕ),
        i ∈ lineStartIdxs 0 idx n
          ↔ idx ≤ i ∧ i < idx + n ∧ (i - idx) % measuresPerLine = 0) := by
  refine ⟨?_, convert_tempoMarks, ?_⟩
  · intro tempo idx hp
    rw [getTempoAtMeasure, tempoGo_spec _ tempo 120 hp, specActiveTempo]
  · intro idx n i
    rw [lineStartIdxs_mem n 0 idx i (Nat.zero_le _)]
    simp

/-- Witness for C3 (amended) at the concrete two-breakpoint document. -/
theorem c3_tempo_amended_witness :
    List.Pairwise (fun a b => a.measure.getD 0 ≤ b.measure.getD 0) c3tempo
    ∧ getTempoAtMeasure c3tempo 3 = specActiveTempo c3tempo 3
    ∧ renderedOk (convert c3doc none)
    ∧ tempoMarksOf (outCores (convert c3doc none))
        = (dedupGo c3doc.tempo none
            (lineStartIdxs 0 (findFirstContentMeasure c3doc.measures)
              (c3doc.measures.length
                - findFirstContentMeasure c3doc.measures))).1
    ∧ (4 ∈ lineStartIdxs 0 0 5
        ↔ 0 ≤ 4 ∧ 4 < 0 + 5 ∧ (4 - 0) % measuresPerLine = 0) := by
  refine ⟨by decide, c3_tempo_amended.1 c3tempo 3 (by decide),
    ⟨_, by with_unfolding_all rfl⟩,
    c3_tempo_amended.2.1 c3doc none ⟨_, by with_unfolding_all rfl⟩,
    c3_tempo_amended.2.2 0 5 4⟩

/-! ## C10 — default tempo -/

/-- C10: when no breakpoint has measure index at or before the measure
(including an empty or absent tempo list), the resolved tempo is 120 bpm;
and on a successful render of a non-empty document whose breakpoints all
lie beyond the start measure, the first tempo marking drawn is 120 at the
start measure. -/
theorem c10_default_tempo :
    (∀ (tempo : List TempoChange) (idx : ℕ),
      (∀ tc ∈ tempo, ¬(tc.measure.getD 0 ≤ (idx : ℤ))) →
      getTempoAtMeasure tempo idx = 120)
    ∧ (∀ (d : Doc) (ti : Option TrackInfo), renderedOk (convert d ti) →
        d.measures ≠ [] →
        (∀ tc ∈ d.tempo,
          ¬(tc.measure.getD 0 ≤ (findFirstContentMeasure d.measures : ℤ))) →
        (tempoMarksOf (outCores (convert d ti))).head?
          = some (findFirstContentMeasure d.measures, 120)) := by
  have part1 : ∀ (tempo : List TempoChange) (idx : ℕ),
      (∀ tc ∈ tempo, ¬(tc.measure.getD 0 ≤ (idx : ℤ))) →
      getTempoAtMeasure tempo idx = 120 := by
    intro tempo idx h
    cases tempo with
    | nil => rfl
    | cons tc rest =>
      rw [getTempoAtMeasure, tempoGo, if_neg (h tc (by simp))]
  refine ⟨part1, ?_⟩
  intro d ti hok hne htc
  rw [convert_tempoMarks d ti hok]
  have hlt := findFirst_lt d.measures hne
  obtain ⟨k, hk⟩ : ∃ k,
      d.measures.length - findFirstContentMeasure d.measures = k + 1 :=
    ⟨d.measures.length - findFirstContentMeasure d.measures - 1, by omega⟩
  rw [hk]
  have h120 : getTempoAtMeasure d.tempo (findFirstContentMeasure d.measures)
      = 120 := part1 d.tempo _ htc
  simp only [lineStartIdxs]
  rw [if_neg (by decide : ¬((0 : ℕ) ≥ measuresPerLine))]
  rw [if_pos rfl]
  simp only [List.singleton_append, dedupGo, h120]
  rw [if_pos (by simp)]
  rfl

/-- A document with one content measure and no tempo breakpoints. -/
def c10doc : Doc := ⟨[⟨false, none, []⟩], [], none, none, none⟩

/-- Witness for C10 at the concrete empty-automation document. -/
theorem c10_default_tempo_witness :
    getTempoAtMeasure [] 0 = 120
    ∧ renderedOk (convert c10doc none)
    ∧ c10doc.measures ≠ []
    ∧ (tempoMarksOf (outCores (convert c10doc none))).head?
        = some (findFirstContentMeasure c10doc.measures, 120) := by
  refine ⟨c10_default_tempo.1 [] 0 (by simp),
    ⟨_, by with_unfolding_all rfl⟩, by decide,
    c10_default_tempo.2 c10doc none ⟨_, by with_unfolding_all rfl⟩
      (by decide) (by simp [c10doc])⟩

/-! ## C4 — time signature placement -/

/-- The y position of the top line of page `p`: the header bottom on page 0
(the header is only drawn once), and `page_height - margin - 10mm` on every
later page (line 210). -/
def pageTopOf (y0 : ℚ) (p : ℕ) : ℚ := if p = 0 then y0 else pageTopLater

/-- The line wrap preserves the invariant "the first-line flag holds exactly
at the page's top position", given a positive line height. -/
theorem coreWrap_inv (lh : ℚ) (hlh : 0 < lh) (y0 : ℚ) (s : CoreState)
    (h1 : s.firstLine = true ↔ s.cy = pageTopOf y0 s.page)
    (h2 : s.cy ≤ pageTopOf y0 s.page) :
    ((coreWrap lh s).firstLine = true
      ↔ (coreWrap lh s).cy = pageTopOf y0 (coreWrap lh s).page)
    ∧ (coreWrap lh s).cy ≤ pageTopOf y0 (coreWrap lh s).page := by
  simp only [coreWrap]
  split_ifs with hcnt hbreak
  · constructor
    · simp [pageTopOf]
    · simp [pageTopOf]
  · constructor
    · constructor
      · intro hf; exact absurd hf (by simp)
      · intro hcy
        exfalso
        have : s.cy - lh < pageTopOf y0 s.page := by linarith
        simp only at hcy
        linarith [hcy ▸ this]
    · simp only
      linarith
  · exact ⟨h1, h2⟩

/-- Every entry of the pure loop run satisfies: its first-line flag holds
exactly when its y position is its page's top position. -/
theorem coreRun_firstLine (lh : ℚ) (hlh : 0 < lh) (tempo : List TempoChange)
    (start : ℕ) (y0 : ℚ) :
    ∀ (gs : List (Option Sig)) (idx : ℕ) (s : CoreState),
    (s.firstLine = true ↔ s.cy = pageTopOf y0 s.page) →
    s.cy ≤ pageTopOf y0 s.page →
    ∀ e ∈ (coreRun lh tempo start idx gs s).1,
      (e.firstLine = true ↔ e.y = pageTopOf y0 e.page) := by
  intro gs
  induction gs with
  | nil => intro idx s _ _ e he; simp [coreRun] at he
  | cons g gs ih =>
    intro idx s hinv hle e he
    obtain ⟨hinv', hle'⟩ := coreWrap_inv lh hlh y0 s hinv hle
    simp only [coreRun, List.mem_cons] at he
    rcases he with he | he
    · subst he
      exact hinv'
    · exact ih (idx + 1) (coreStep lh tempo start idx g s).2 hinv' hle' e he

/-- Every entry's signature-drawn flag is the source's condition of line
233: a line start, an active signature, and (first line of the page or the
very first rendered measure). -/
theorem coreRun_sigDrawn (lh : ℚ) (tempo : List TempoChange) (start : ℕ) :
    ∀ (gs : List (Option Sig)) (idx : ℕ) (s : CoreState),
    ∀ e ∈ (coreRun lh tempo start idx gs s).1,
    e.sigDrawn
      = ((e.cnt == 0) && e.sig.isSome && (e.firstLine || e.idx == start)) := by
  intro gs
  induction gs with
  | nil => intro idx s e he; simp [coreRun] at he
  | cons g gs ih =>
    intro idx s e he
    simp only [coreRun, List.mem_cons] at he
    rcases he with he | he
    · subst he; rfl
    · exact ih (idx + 1) (coreStep lh tempo start idx g s).2 e he

/-- C4 (amended): on a successful render with a nonnegative string count,
the time signature is drawn at a measure exactly when that measure is a
line start with an active signature AND its line is the first line of its
page (or it is the very first rendered measure); the first-line flag in
turn holds exactly when the measure's y position is its page's top
position.  Later lines of a page never receive a signature. -/
theorem c4_signature_amended (d : Doc) (ti : Option TrackInfo) (ns : ℤ)
    (hok : renderedOk (convert d ti))
    (hns : resolveNumStrings ti d = .ok ns)
    (hpos : 0 ≤ ns) :
    (∀ e ∈ outCores (convert d ti),
      e.sigDrawn = ((e.cnt == 0) && e.sig.isSome
        && (e.firstLine || e.idx == findFirstContentMeasure d.measures)))
    ∧ (∀ e ∈ outCores (convert d ti),
        (e.firstLine = true ↔ e.y = pageTopOf headerBottomY e.page)) := by
  obtain ⟨o, ho⟩ := hok
  obtain ⟨ns', fin, hns', hl, hfin⟩ := convert_ok_elim d ti o ho
  rw [hns] at hns'
  simp only [Except.ok.injEq] at hns'
  subst hns'
  have hc := renderLoop_ok_core ns (lineHeightFor ns) d.tempo
    (findFirstContentMeasure d.measures)
    (d.measures.drop (findFirstContentMeasure d.measures))
    (findFirstContentMeasure d.measures) _ fin hl
  have hout : outCores (convert d ti)
      = (coreRun (lineHeightFor ns) d.tempo
          (findFirstContentMeasure d.measures)
          (findFirstContentMeasure d.measures)
          ((d.measures.drop (findFirstContentMeasure d.measures)).map
            Measure.signature)
          ⟨tabXStart, headerBottomY, 0, none, none, true, 0⟩).1 := by
    rw [ho]
    simp only [outCores, hfin]
    rw [hc.1]
    simp only [List.map_nil, List.nil_append]
  have hlh : 0 < lineHeightFor ns := by
    have hsp : (0 : ℚ) ≤ stringSpacing := by with_unfolding_all decide
    have hls : (0 : ℚ) < lineSpacingC := by with_unfolding_all decide
    have hnn : (0 : ℚ) ≤ (ns : ℚ) * stringSpacing :=
      mul_nonneg (by exact_mod_cast hpos) hsp
    rw [lineHeightFor]
    linarith
  constructor
  · rw [hout]
    exact coreRun_sigDrawn (lineHeightFor ns) d.tempo _ _ _ _
  · rw [hout]
    exact coreRun_firstLine (lineHeightFor ns) hlh d.tempo _ headerBottomY _ _ _
      (by simp [pageTopOf]) (by simp [pageTopOf])

/-- Five content measures, the first carrying signature (4,4); with 6
strings all five fit on page 0, the fifth starting a second line. -/
def c4doc : Doc :=
  ⟨[⟨false, some (4, 4), []⟩, ⟨false, none, []⟩, ⟨false, none, []⟩,
    ⟨false, none, []⟩, ⟨false, none, []⟩], [], none, none, none⟩

/-- Counterexample to C4 as stated: measure 4 starts the second line of
page 0 with the signature (4,4) still active, yet no signature is drawn
there — the signature is drawn only on the first line of a page
(`is_first_line or measure_idx == start_measure`, line 233), not once per
line. -/
theorem c4_once_per_line_refuted :
    (outCores (convert c4doc none)).map
        (fun e => (e.cnt, e.sig.isSome, e.sigDrawn))
      = [(0, true, true), (1, true, false), (2, true, false),
         (3, true, false), (0, true, false)]
    ∧ (outCores (convert c4doc none)).map (fun e => e.page)
      = [0, 0, 0, 0, 0] := by
  refine ⟨by with_unfolding_all decide, by with_unfolding_all decide⟩

/-- Rendering `c4doc` produces at least one measure record. -/
theorem c4doc_trace_ne_nil : outCores (convert c4doc none) ≠ [] := by
  with_unfolding_all decide

/-- The first rendered measure record of `c4doc`. -/
def c4whead : CoreEntry :=
  (outCores (convert c4doc none)).head c4doc_trace_ne_nil

/-- Witness for C4 (amended) at the concrete document and its first
rendered measure record. -/
theorem c4_signature_amended_witness :
    renderedOk (convert c4doc none)
    ∧ resolveNumStrings none c4doc = .ok 6
    ∧ (0 : ℤ) ≤ 6
    ∧ c4whead ∈ outCores (convert c4doc none)
    ∧ c4whead.sigDrawn = true
    ∧ c4whead.sigDrawn = ((c4whead.cnt == 0) && c4whead.sig.isSome
        && (c4whead.firstLine
            || c4whead.idx == findFirstContentMeasure c4doc.measures))
    ∧ (c4whead.firstLine = true
        ↔ c4whead.y = pageTopOf headerBottomY c4whead.page) := by
  have h := c4_signature_amended c4doc none 6
    ⟨_, by with_unfolding_all rfl⟩ (by with_unfolding_all decide) (by decide)
  exact ⟨⟨_, by with_unfolding_all rfl⟩, by with_unfolding_all decide,
    by decide, List.head_mem c4doc_trace_ne_nil,
    by with_unfolding_all decide,
    h.1 c4whead (List.head_mem c4doc_trace_ne_nil),
    h.2 c4whead (List.head_mem c4doc_trace_ne_nil)⟩

/-! ## C5 — lines of four measures and pagination -/

/-- The geometry of one loop iteration on the (count, page, y) projection:
exactly the wrap of lines 202-211. -/
def geomStep (lh : ℚ) (t : ℕ × ℕ × ℚ) : ℕ × ℕ × ℚ :=
  if t.1 ≥ measuresPerLine then
    if t.2.2 - lh < marginC + lh then (0, t.2.1 + 1, pageTopLater)
    else (0, t.2.1, t.2.2 - lh)
  else t

/-- The per-measure (index, count, page, y) records of the layout, one per
remaining measure. -/
def geomTrace (lh : ℚ) :
    ℕ → List (Option Sig) → (ℕ × ℕ × ℚ) → List (ℕ × ℕ × ℕ × ℚ)
  | _, [], _ => []
  | idx, _ :: gs, t =>
    (idx, (geomStep lh t).1, (geomStep lh t).2.1, (geomStep lh t).2.2)
      :: geomTrace lh (idx + 1) gs
          ((geomStep lh t).1 + 1, (geomStep lh t).2.1, (geomStep lh t).2.2)

/-- The page index after laying out the remaining measures. -/
def geomFinalPage (lh : ℚ) : List (Option Sig) → (ℕ × ℕ × ℚ) → ℕ
  | [], t => t.2.1
  | _ :: gs, t =>
    geomFinalPage lh gs
      ((geomStep lh t).1 + 1, (geomStep lh t).2.1, (geomStep lh t).2.2)

theorem coreWrap_geom (lh : ℚ) (s : CoreState) :
    ((coreWrap lh s).cnt, (coreWrap lh s).page, (coreWrap lh s).cy)
      = geomStep lh (s.cnt, s.page, s.cy) := by
  simp only [coreWrap, geomStep]
  split_ifs <;> rfl

/-- The (index, count, page, y) projection of the pure loop run is the
geometry recursion, and so is the final page index. -/
theorem coreRun_geom (lh : ℚ) (tempo : List TempoChange) (start : ℕ) :
    ∀ (gs : List (Option Sig)) (idx : ℕ) (s : CoreState),
    ((coreRun lh tempo start idx gs s).1).map
        (fun e => (e.idx, e.cnt, e.page, e.y))
      = geomTrace lh idx gs (s.cnt, s.page, s.cy)
    ∧ ((coreRun lh tempo start idx gs s).2).page
      = geomFinalPage lh gs (s.cnt, s.page, s.cy) := by
  intro gs
  induction gs with
  | nil => intro idx s; exact ⟨rfl, rfl⟩
  | cons g gs ih =>
    intro idx s
    obtain ⟨ih1, ih2⟩ := ih (idx + 1) (coreStep lh tempo start idx g s).2
    have hw := coreWrap_geom lh s
    have hw1 : (coreWrap lh s).cnt
        = (geomStep lh (s.cnt, s.page, s.cy)).1 := by rw [← hw]
    have hw2 : (coreWrap lh s).page
        = (geomStep lh (s.cnt, s.page, s.cy)).2.1 := by rw [← hw]
    have hw3 : (coreWrap lh s).cy
        = (geomStep lh (s.cnt, s.page, s.cy)).2.2 := by rw [← hw]
    have hst : ((coreStep lh tempo start idx g s).2.cnt,
        (coreStep lh tempo start idx g s).2.page,
        (coreStep lh tempo start idx g s).2.cy)
        = ((geomStep lh (s.cnt, s.page, s.cy)).1 + 1,
           (geomStep lh (s.cnt, s.page, s.cy)).2.1,
           (geomStep lh (s.cnt, s.page, s.cy)).2.2) := by
      rw [← hw1, ← hw2, ← hw3]
      rfl
    constructor
    · simp only [coreRun, List.map_cons, geomTrace]
      refine congrArg₂ List.cons ?_ ?_
      · show (idx, (coreWrap lh s).cnt, (coreWrap lh s).page,
            (coreWrap lh s).cy) = _
        rw [hw1, hw2, hw3]
      · rw [ih1, show ((coreStep lh tempo start idx g s).2.cnt,
            (coreStep lh tempo start idx g s).2.page,
            (coreStep lh tempo start idx g s).2.cy)
            = ((geomStep lh (s.cnt, s.page, s.cy)).1 + 1,
               (geomStep lh (s.cnt, s.page, s.cy)).2.1,
               (geomStep lh (s.cnt, s.page, s.cy)).2.2) from hst]
    · simp only [coreRun, geomFinalPage]
      rw [ih2, show ((coreStep lh tempo start idx g s).2.cnt,
          (coreStep lh tempo start idx g s).2.page,
          (coreStep lh tempo start idx g s).2.cy)
          = ((geomStep lh (s.cnt, s.page, s.cy)).1 + 1,
             (geomStep lh (s.cnt, s.page, s.cy)).2.1,
             (geomStep lh (s.cnt, s.page, s.cy)).2.2) from hst]

/-- Measure counts cycle modulo `measuresPerLine`: the `k`-th rendered
record (from a count `c ≤ 4`) has count `(φ(c) + k) mod 4`. -/
theorem coreRun_cnt (lh : ℚ) (tempo : List TempoChange) (start : ℕ) :
    ∀ (gs : List (Option Sig)) (idx : ℕ) (s : CoreState),
    s.cnt ≤ measuresPerLine →
    ∀ (k : ℕ) (e : CoreEntry),
    ((coreRun lh tempo start idx gs s).1).get? k = some e →
    e.cnt = ((if s.cnt ≥ measuresPerLine then 0 else s.cnt) + k)
        % measuresPerLine := by
  intro gs
  induction gs with
  | nil => intro idx s _ k e h; simp [coreRun] at h
  | cons g gs ih =>
    intro idx s hc k e h
    have h4 : measuresPerLine = 4 := rfl
    cases k with
    | zero =>
      simp only [coreRun, List.get?_cons_zero, Option.some.injEq] at h
      have he : e.cnt = (coreWrap lh s).cnt := by rw [← h]; rfl
      rw [he, coreWrap_cnt]
      rw [h4] at hc ⊢
      split_ifs <;> omega
    | succ k =>
      simp only [coreRun, List.get?_cons_succ] at h
      have hc' : (coreStep lh tempo start idx g s).2.cnt ≤ measuresPerLine := by
        rw [show (coreStep lh tempo start idx g s).2.cnt
              = (coreWrap lh s).cnt + 1 from rfl, coreWrap_cnt, h4]
        rw [h4] at hc
        split_ifs <;> omega
      have := ih (idx + 1) (coreStep lh tempo start idx g s).2 hc' k e h
      rw [show (coreStep lh tempo start idx g s).2.cnt
            = (coreWrap lh s).cnt + 1 from rfl, coreWrap_cnt] at this
      rw [h4] at this ⊢
      rw [h4] at hc
      split_ifs at this ⊢ <;> omega

/-- C5: a new line starts after every 4 measures (the k-th rendered measure
has in-line position k mod 4); at a line wrap a new page starts exactly
when the lowered y cursor falls below `margin + line_height`; and a
9-measure document whose line height fits exactly two lines per page
renders as 2 pages, measures 1-4 on the first line, 5-8 on the second line
of page 0, and measure 9 alone at the top of page 1. -/
theorem c5_pagination :
    (∀ (d : Doc) (ti : Option TrackInfo) (k : ℕ) (e : CoreEntry),
      renderedOk (convert d ti) →
      (outCores (convert d ti)).get? k = some e →
      e.cnt = k % measuresPerLine)
    ∧ (∀ (lh : ℚ) (s : CoreState), s.cnt ≥ measuresPerLine →
        ((coreWrap lh s).page = s.page + 1 ↔ s.cy - lh < marginC + lh))
    ∧ (∀ (d : Doc) (ti : Option TrackInfo) (ns : ℤ),
        resolveNumStrings ti d = .ok ns →
        d.measures.length = 9 →
        findFirstContentMeasure d.measures = 0 →
        renderedOk (convert d ti) →
        marginC + lineHeightFor ns ≤ headerBottomY - lineHeightFor ns →
        headerBottomY - lineHeightFor ns - lineHeightFor ns
          < marginC + lineHeightFor ns →
        outPages (convert d ti) = 2
        ∧ (outCores (convert d ti)).map (fun e => (e.idx, e.cnt, e.page, e.y))
          = [(0, 0, 0, headerBottomY), (1, 1, 0, headerBottomY),
             (2, 2, 0, headerBottomY), (3, 3, 0, headerBottomY),
             (4, 0, 0, headerBottomY - lineHeightFor ns),
             (5, 1, 0, headerBottomY - lineHeightFor ns),
             (6, 2, 0, headerBottomY - lineHeightFor ns),
             (7, 3, 0, headerBottomY - lineHeightFor ns),
             (8, 0, 1, pageTopLater)]) := by
  refine ⟨?_, ?_, ?_⟩
  · intro d ti k e hok hget
    obtain ⟨o, ho⟩ := hok
    obtain ⟨ns, fin, _, hl, hfin⟩ := convert_ok_elim d ti o ho
    have hc := renderLoop_ok_core ns (lineHeightFor ns) d.tempo
      (findFirstContentMeasure d.measures)
      (d.measures.drop (findFirstContentMeasure d.measures))
      (findFirstContentMeasure d.measures) _ fin hl
    rw [ho] at hget
    simp only [outCores, hfin] at hget
    rw [hc.1] at hget
    simp only [List.map_nil, List.nil_append] at hget
    have := coreRun_cnt (lineHeightFor ns) d.tempo
      (findFirstContentMeasure d.measures)
      ((d.measures.drop (findFirstContentMeasure d.measures)).map
        Measure.signature)
      (findFirstContentMeasure d.measures)
      ⟨tabXStart, headerBottomY, 0, none, none, true, 0⟩
      (by decide) k e hget
    simpa using this
  · intro lh s hcnt
    simp only [coreWrap, if_pos hcnt]
    by_cases hbr : s.cy - lh < marginC + lh
    · rw [if_pos hbr]
      simp [hbr]
    · rw [if_neg hbr]
      simp only
      constructor
      · intro hp; omega
      · intro hp; exact absurd hp hbr
  · intro d ti ns hns h9 hstart hok h1 h2
    obtain ⟨o, ho⟩ := hok
    obtain ⟨ns', fin, hns', hl, hfin⟩ := convert_ok_elim d ti o ho
    rw [hns] at hns'
    simp only [Except.ok.injEq] at hns'
    subst hns'
    rw [hstart] at hl
    have hc := renderLoop_ok_core ns (lineHeightFor ns) d.tempo 0
      (d.measures.drop 0) 0 _ fin hl
    have hgeom := coreRun_geom (lineHeightFor ns) d.tempo 0
      ((d.measures.drop 0).map Measure.signature) 0
      ⟨tabXStart, headerBottomY, 0, none, none, true, 0⟩
    obtain ⟨a0, a1, a2, a3, a4, a5, a6, a7, a8, hms⟩ :
        ∃ a0 a1 a2 a3 a4 a5 a6 a7 a8, d.measures
          = [a0, a1, a2, a3, a4, a5, a6, a7, a8] := by
      rcases hl9 : d.measures with
        _ | ⟨a0, _ | ⟨a1, _ | ⟨a2, _ | ⟨a3, _ | ⟨a4, _ | ⟨a5,
          _ | ⟨a6, _ | ⟨a7, _ | ⟨a8, _ | ⟨a9, rest⟩⟩⟩⟩⟩⟩⟩⟩⟩⟩ <;>
        rw [hl9] at h9 <;>
        first
          | (exact ⟨_, _, _, _, _, _, _, _, _, rfl⟩)
          | simp at h9
    have hnlt : ¬(headerBottomY - lineHeightFor ns
        < marginC + lineHeightFor ns) := not_lt.mpr h1
    have hgt : geomTrace (lineHeightFor ns) 0
        ((d.measures.drop 0).map Measure.signature)
        (0, 0, headerBottomY)
        = [(0, 0, 0, headerBottomY), (1, 1, 0, headerBottomY),
           (2, 2, 0, headerBottomY), (3, 3, 0, headerBottomY),
           (4, 0, 0, headerBottomY - lineHeightFor ns),
           (5, 1, 0, headerBottomY - lineHeightFor ns),
           (6, 2, 0, headerBottomY - lineHeightFor ns),
           (7, 3, 0, headerBottomY - lineHeightFor ns),
           (8, 0, 1, pageTopLater)] := by
      rw [hms]
      simp [geomTrace, geomStep, measuresPerLine, hnlt, h2]
    have hgp : geomFinalPage (lineHeightFor ns)
        ((d.measures.drop 0).map Measure.signature)
        (0, 0, headerBottomY) = 1 := by
      rw [hms]
      simp [geomFinalPage, geomStep, measuresPerLine, hnlt, h2]
    constructor
    · rw [ho]
      simp only [outPages, hfin]
      rw [hc.2, hgeom.2, hgp]
    · rw [ho]
      simp only [outCores, hfin]
      rw [hc.1]
      simp only [List.map_nil, List.nil_append]
      rw [hgeom.1, hgt]

/-- Nine content measures with a declared string count of 25, whose line
height (25 strings) fits exactly two lines per page. -/
def c5doc : Doc :=
  ⟨[⟨false, none, []⟩, ⟨false, none, []⟩, ⟨false, none, []⟩,
    ⟨false, none, []⟩, ⟨false, none, []⟩, ⟨false, none, []⟩,
    ⟨false, none, []⟩, ⟨false, none, []⟩, ⟨false, none, []⟩],
   [], some 25, none, none⟩

/-- Rendering `c5doc` produces more than four measure records. -/
theorem c5doc_len : 4 < (outCores (convert c5doc none)).length := by
  with_unfolding_all decide

/-- The fifth rendered measure record of `c5doc`. -/
def c5e4 : CoreEntry := (outCores (convert c5doc none)).get ⟨4, c5doc_len⟩

/-- A wrap-time cursor state: four measures on the line, y at the header
bottom. -/
def c5state : CoreState := ⟨0, headerBottomY, 4, none, none, false, 0⟩

/-- Witness for C5 at the concrete 25-string 9-measure document. -/
theorem c5_pagination_witness :
    renderedOk (convert c5doc none)
    ∧ (outCores (convert c5doc none)).get? 4 = some c5e4
    ∧ c5e4.cnt = 4 % measuresPerLine
    ∧ c5e4.cnt = 0
    ∧ c5state.cnt ≥ measuresPerLine
    ∧ ((coreWrap (lineHeightFor 25) c5state).page = c5state.page + 1
        ↔ c5state.cy - lineHeightFor 25 < marginC + lineHeightFor 25)
    ∧ resolveNumStrings none c5doc = .ok 25
    ∧ c5doc.measures.length = 9
    ∧ findFirstContentMeasure c5doc.measures = 0
    ∧ marginC + lineHeightFor 25 ≤ headerBottomY - lineHeightFor 25
    ∧ headerBottomY - lineHeightFor 25 - lineHeightFor 25
        < marginC + lineHeightFor 25
    ∧ outPages (convert c5doc none) = 2
    ∧ (outCores (convert c5doc none)).map (fun e => (e.idx, e.cnt, e.page, e.y))
      = [(0, 0, 0, headerBottomY), (1, 1, 0, headerBottomY),
         (2, 2, 0, headerBottomY), (3, 3, 0, headerBottomY),
         (4, 0, 0, headerBottomY - lineHeightFor 25),
         (5, 1, 0, headerBottomY - lineHeightFor 25),
         (6, 2, 0, headerBottomY - lineHeightFor 25),
         (7, 3, 0, headerBottomY - lineHeightFor 25),
         (8, 0, 1, pageTopLater)] := by
  have hok : renderedOk (convert c5doc none) := ⟨_, by with_unfolding_all rfl⟩
  have hget : (outCores (convert c5doc none)).get? 4 = some c5e4 :=
    List.get?_eq_get c5doc_len
  have hsc := c5_pagination.2.2 c5doc none 25 (by with_unfolding_all decide)
    (by decide) (by with_unfolding_all decide) hok
    (by with_unfolding_all decide) (by with_unfolding_all decide)
  exact ⟨hok, hget, c5_pagination.1 c5doc none 4 c5e4 hok hget,
    by with_unfolding_all decide, by decide,
    c5_pagination.2.1 (lineHeightFor 25) c5state (by decide),
    by with_unfolding_all decide, by decide, by with_unfolding_all decide,
    by with_unfolding_all decide, by with_unfolding_all decide,
    hsc.1, hsc.2⟩

end Tab
